import Mathlib

/-!
Verification of the flowlock drift-detection engine: a shallow embedding of
the symbol data model, the signature comparator, the drift aggregator, the
security validators, and the snapshot store, with theorems checking the
specification's claims against the embedded code.
-/

set_option maxRecDepth 4096

namespace Flowlock

/-! ## Data model (src/types.ts) -/

structure ParameterSignature where
  name : String
  type : String
  optional : Bool
  deriving Repr, DecidableEq

structure FunctionSignature where
  name : String
  parameters : List ParameterSignature
  returnType : String
  filePath : String
  isExported : Bool
  deriving Repr, DecidableEq

structure InterfaceProperty where
  name : String
  type : String
  optional : Bool
  deriving Repr, DecidableEq

structure InterfaceDefinition where
  name : String
  properties : List InterfaceProperty
  filePath : String
  deriving Repr, DecidableEq

structure TypeAliasDefinition where
  name : String
  definition : String
  filePath : String
  deriving Repr, DecidableEq

/-- JS `Record<string, T>` / object: modelled as an association list in
key-insertion order (JS objects iterate string keys in insertion order). -/
abbrev Record (α : Type) := List (String × α)

structure SymbolRegistry where
  functions : Record FunctionSignature
  interfaces : Record InterfaceDefinition
  types : Record TypeAliasDefinition
  deriving Repr, DecidableEq

structure ProjectSnapshot where
  symbols : SymbolRegistry
  deriving Repr, DecidableEq

inductive SignatureChange where
  | parameterAdded (parameter : ParameterSignature) (breaking : Bool)
  | parameterRemoved (parameter : ParameterSignature) (breaking : Bool)
  | parameterTypeChanged (before after : ParameterSignature) (breaking : Bool)
  | returnTypeChanged (before after : String) (breaking : Bool)
  deriving Repr, DecidableEq

def SignatureChange.breaking : SignatureChange → Bool
  | .parameterAdded _ b => b
  | .parameterRemoved _ b => b
  | .parameterTypeChanged _ _ b => b
  | .returnTypeChanged _ _ b => b

structure FunctionDrift where
  name : String
  filePathBefore : String
  filePathAfter : String
  changes : List SignatureChange
  deriving Repr, DecidableEq

/-- `SemverBump = "major" | "minor" | "patch"` kept as the literal strings. -/
abbrev SemverBump := String

structure DriftReport where
  modifiedFunctions : List FunctionDrift
  addedFunctions : List String
  removedFunctions : List String
  hasBreakingChanges : Bool
  suggestedVersion : SemverBump
  deriving Repr, DecidableEq

/-- `SNAPSHOT_FORMAT_VERSION = 1` (src/types.ts). -/
def SNAPSHOT_FORMAT_VERSION : Int := 1

/-! ## JS `Map` and `Set` semantics

`new Map(entries)` inserts pairs left to right; re-inserting an existing key
replaces the value but keeps the key's original position.  Iteration is in
that (first-insertion) order.  `new Set(xs)` dedups keeping first occurrence.
-/

def jsMapInsert {α : Type} (m : List (String × α)) (k : String) (v : α) :
    List (String × α) :=
  if m.any (fun p => p.1 = k) then
    m.map (fun p => if p.1 = k then (k, v) else p)
  else
    m ++ [(k, v)]

def jsMapOfList {α : Type} (l : List (String × α)) : List (String × α) :=
  l.foldl (fun m kv => jsMapInsert m kv.1 kv.2) []

def jsMapGet {α : Type} (m : List (String × α)) (k : String) : Option α :=
  match m with
  | [] => none
  | (k', v) :: rest => if k' = k then some v else jsMapGet rest k

def jsMapHas {α : Type} (m : List (String × α)) (k : String) : Bool :=
  (jsMapGet m k).isSome

def jsSetOfList (l : List String) : List String :=
  l.foldl (fun s k => if s.contains k then s else s ++ [k]) []

/-! ## Whitespace normalization (signatureComparator.ts) -/

/-- One step of `s.replace(/\s+/g, " ")` on the character list: every maximal
whitespace run collapses to a single space. -/
def collapseWS : List Char → List Char
  | [] => []
  | [c] => [if c.isWhitespace then ' ' else c]
  | c :: d :: rest =>
    if c.isWhitespace then
      if d.isWhitespace then collapseWS (d :: rest)
      else ' ' :: collapseWS (d :: rest)
    else c :: collapseWS (d :: rest)

def trimChars (l : List Char) : List Char :=
  ((l.dropWhile Char.isWhitespace).reverse.dropWhile Char.isWhitespace).reverse

/-- `s.trim()` in JS (whitespace at both ends removed). -/
def strTrim (s : String) : String := String.mk (trimChars s.data)

/-- `normalizeForComparison`: collapse whitespace runs to one space, trim. -/
def normalizeForComparison (s : String) : String :=
  String.mk (trimChars (collapseWS s.data))

/-- `paramsEqual` (signatureComparator.ts). -/
def paramsEqual (a b : ParameterSignature) : Bool :=
  a.name = b.name && a.optional = b.optional &&
    normalizeForComparison a.type = normalizeForComparison b.type

/-! ## compareSignatures (signatureComparator.ts) -/

def compareSignatures (before after : FunctionSignature) :
    List SignatureChange :=
  let beforeParams := jsMapOfList (before.parameters.map fun p => (p.name, p))
  let afterParams := jsMapOfList (after.parameters.map fun p => (p.name, p))
  let firstLoop := afterParams.flatMap fun (name, afterParam) =>
    match jsMapGet beforeParams name with
    | none => [SignatureChange.parameterAdded afterParam (!afterParam.optional)]
    | some beforeParam =>
      if paramsEqual beforeParam afterParam then []
      else [SignatureChange.parameterTypeChanged beforeParam afterParam true]
  let removedLoop := beforeParams.flatMap fun (name, beforeParam) =>
    if jsMapHas afterParams name then []
    else [SignatureChange.parameterRemoved beforeParam true]
  let beforeReturn := normalizeForComparison before.returnType
  let afterReturn := normalizeForComparison after.returnType
  let returnPart :=
    if beforeReturn ≠ afterReturn then
      [SignatureChange.returnTypeChanged before.returnType after.returnType true]
    else []
  firstLoop ++ removedLoop ++ returnPart

/-! ## compareSnapshots (signatureComparator.ts) -/

/-- Insertion sort on strings, modelling JS `Array.prototype.sort()` default
lexicographic comparison (stable; equal strings are identical anyway). -/
def insertSorted (x : String) : List String → List String
  | [] => [x]
  | y :: ys => if x ≤ y then x :: y :: ys else y :: insertSorted x ys

def sortStrings (l : List String) : List String :=
  l.foldr insertSorted []

def computeHasBreakingChanges (modified : List FunctionDrift)
    (removed : List String) : Bool :=
  if removed.length > 0 then true
  else modified.any fun fn => fn.changes.any fun c => c.breaking

def computeSuggestedVersion (modified : List FunctionDrift)
    (added removed : List String) : SemverBump :=
  if removed.length > 0 then "major"
  else if modified.any (fun fn => fn.changes.any fun c => c.breaking) then
    "major"
  else if added.length > 0 || modified.length > 0 then "minor"
  else "patch"

def compareSnapshots (before after : ProjectSnapshot) : DriftReport :=
  let beforeKeys := jsSetOfList (before.symbols.functions.map Prod.fst)
  let afterKeys := jsSetOfList (after.symbols.functions.map Prod.fst)
  let addedFunctions := afterKeys.filter fun k => !beforeKeys.contains k
  let modifiedFunctions := afterKeys.filterMap fun k =>
    if beforeKeys.contains k then
      match jsMapGet before.symbols.functions k,
            jsMapGet after.symbols.functions k with
      | some beforeFn, some afterFn =>
        let changes := compareSignatures beforeFn afterFn
        if changes.length > 0 then
          some ⟨afterFn.name, beforeFn.filePath, afterFn.filePath, changes⟩
        else none
      | _, _ => none
    else none
  let removedFunctions := beforeKeys.filter fun k => !afterKeys.contains k
  let addedSorted := sortStrings addedFunctions
  let removedSorted := sortStrings removedFunctions
  { modifiedFunctions
    addedFunctions := addedSorted
    removedFunctions := removedSorted
    hasBreakingChanges := computeHasBreakingChanges modifiedFunctions removedSorted
    suggestedVersion :=
      computeSuggestedVersion modifiedFunctions addedSorted removedSorted }

/-! ## Character-level string helpers

Structurally recursive models of `String.prototype.startsWith`, splitting on
a separator character, and substring containment (used for error-message
claims); all match the JS semantics on the relevant inputs.
-/

def startsWithChars : List Char → List Char → Bool
  | [], _ => true
  | _ :: _, [] => false
  | a :: as, b :: bs => a = b && startsWithChars as bs

/-- `s.startsWith(pre)`. -/
def strStartsWith (s pre : String) : Bool := startsWithChars pre.data s.data

def hasInfix (l sub : List Char) : Bool :=
  match l with
  | [] => startsWithChars sub []
  | _ :: rest => startsWithChars sub l || hasInfix rest sub

/-- `msg` mentions `sub` as a contiguous substring. -/
def strContains (s sub : String) : Bool := hasInfix s.data sub.data

def splitChars (sep : Char) : List Char → List (List Char)
  | [] => [[]]
  | c :: rest =>
    let r := splitChars sep rest
    if c = sep then [] :: r
    else
      match r with
      | [] => [[c]]
      | g :: gs => (c :: g) :: gs

/-- `s.split("/")` (equivalently `s.splitOn "/"`): the `/`-separated
components of a path string. -/
def splitOnSlash (s : String) : List String :=
  (splitChars (Char.ofNat 47) s.data).map String.mk

theorem startsWithChars_append_self (sub t : List Char) :
    startsWithChars sub (sub ++ t) = true := by
  induction sub with
  | nil => rfl
  | cons a as ih => simp [startsWithChars, ih]

theorem hasInfix_of_startsWith (l sub : List Char)
    (h : startsWithChars sub l = true) : hasInfix l sub = true := by
  cases l with
  | nil => exact h
  | cons x rest => simp [hasInfix, h]

theorem hasInfix_parts (s t sub : List Char) :
    hasInfix (s ++ (sub ++ t)) sub = true := by
  induction s with
  | nil => exact hasInfix_of_startsWith _ _ (startsWithChars_append_self sub t)
  | cons x rest ih => simp [hasInfix, ih]

/-! ## Security validation (security/validation.ts) -/

/-- `/[\x00-\x1f\x7f]/` — control characters. -/
def isControlChar (c : Char) : Bool := c.toNat ≤ 31 || c.toNat = 127

/-- `UNSAFE_REF_CHARS = /["'`+"`"+`$\\;|&<>()\s]/` — shell metacharacters. -/
def isUnsafeRefChar (c : Char) : Bool :=
  c = Char.ofNat 34 || c = Char.ofNat 39 || c = Char.ofNat 96 ||
  c = '$' || c = '\\' || c = ';' || c = '|' || c = '&' ||
  c = '<' || c = '>' || c = '(' || c = ')' || c.isWhitespace

def validateGitRef (ref : String) : Except String String :=
  let trimmed := strTrim ref
  if trimmed.length = 0 then .error "Git ref cannot be empty"
  else if trimmed.length > 256 then .error "Git ref exceeds maximum length (256)"
  else if ref.data.any isControlChar || ref.data.any isUnsafeRefChar then
    .error "Git ref contains invalid characters. Use only alphanumeric, hyphens, dots, slashes."
  else .ok trimmed

/-! ### POSIX path semantics (node:path `resolve` / `relative`)

Paths are `/`-separated strings.  Resolution normalizes components: empty and
`.` components vanish, `..` pops the previous component (and is dropped at the
root).  `relative` strips the common component prefix and emits one `..` per
remaining source component.  Base directories are assumed absolute (the code
defaults to `process.cwd()`, always absolute).
-/

def normalizeComponents (cs : List String) : List String :=
  cs.foldl
    (fun acc c =>
      if c = "" || c = "." then acc
      else if c = ".." then acc.dropLast
      else acc ++ [c])
    []

/-- `resolve(baseDir)` for an absolute `baseDir`: normalization. -/
def resolveBase (baseDir : String) : String :=
  "/" ++ String.intercalate "/" (normalizeComponents (splitOnSlash baseDir))

/-- `resolve(base, p)` for an absolute `base`. -/
def resolveFrom (base p : String) : String :=
  if strStartsWith p "/" then
    "/" ++ String.intercalate "/" (normalizeComponents (splitOnSlash p))
  else
    "/" ++ String.intercalate "/"
      (normalizeComponents (splitOnSlash (base ++ "/" ++ p)))

def dropCommonPrefix : List String → List String → List String × List String
  | a :: as, b :: bs =>
    if a = b then dropCommonPrefix as bs else (a :: as, b :: bs)
  | as, bs => (as, bs)

/-- `relative(fromP, toP)` for absolute arguments. -/
def posixRelative (fromP toP : String) : String :=
  let f := normalizeComponents (splitOnSlash fromP)
  let t := normalizeComponents (splitOnSlash toP)
  let (f2, t2) := dropCommonPrefix f t
  String.intercalate "/" (f2.map (fun _ => "..") ++ t2)

def MAX_PATH_LENGTH : Nat := 4096

def validatePath (path : String) (baseDir : String) : Except String String :=
  let trimmed := strTrim path
  if trimmed.length = 0 then .error "Path cannot be empty"
  else if trimmed.length > MAX_PATH_LENGTH then
    .error "Path exceeds maximum length (4096)"
  else
    let base := resolveBase baseDir
    let resolved := resolveFrom base trimmed
    let rel := posixRelative base resolved
    if strStartsWith rel ".." || strStartsWith rel "/" then
      .error "Path resolves outside allowed directory"
    else .ok resolved

/-! ## JSON values and the persisted snapshot document

`JSON.stringify` of a `StoredSnapshot` followed by `JSON.parse` reproduces the
same JSON tree, so file contents are modelled as JSON values; the encoders
below spell out exactly which tree `JSON.stringify` produces for each data
type (properties in declaration order, `undefined`-valued properties dropped).
-/

inductive Json where
  | null
  | bool (b : Bool)
  | num (n : Int)
  | str (s : String)
  | arr (elems : List Json)
  | obj (fields : List (String × Json))

def getField : Json → String → Option Json
  | .obj fields, k => jsMapGet fields k
  | _, _ => none

/-- `typeof v === "object" && v !== null` (objects and arrays). -/
def isObjLike : Json → Bool
  | .obj _ => true
  | .arr _ => true
  | _ => false

def encodeParam (p : ParameterSignature) : Json :=
  .obj [("name", .str p.name), ("type", .str p.type),
        ("optional", .bool p.optional)]

def encodeFunction (f : FunctionSignature) : Json :=
  .obj [("name", .str f.name),
        ("parameters", .arr (f.parameters.map encodeParam)),
        ("returnType", .str f.returnType),
        ("filePath", .str f.filePath),
        ("isExported", .bool f.isExported)]

def encodeInterfaceProp (p : InterfaceProperty) : Json :=
  .obj [("name", .str p.name), ("type", .str p.type),
        ("optional", .bool p.optional)]

def encodeInterface (i : InterfaceDefinition) : Json :=
  .obj [("name", .str i.name),
        ("properties", .arr (i.properties.map encodeInterfaceProp)),
        ("filePath", .str i.filePath)]

def encodeTypeAlias (t : TypeAliasDefinition) : Json :=
  .obj [("name", .str t.name), ("definition", .str t.definition),
        ("filePath", .str t.filePath)]

def encodeRecord {α : Type} (enc : α → Json) (r : Record α) : Json :=
  .obj (r.map fun kv => (kv.1, enc kv.2))

def encodeSnapshot (s : ProjectSnapshot) : Json :=
  .obj [("symbols", .obj
    [("functions", encodeRecord encodeFunction s.symbols.functions),
     ("interfaces", encodeRecord encodeInterface s.symbols.interfaces),
     ("types", encodeRecord encodeTypeAlias s.symbols.types)])]

/-- The `metadata` object built by `saveSnapshot`; `gitRef`/`gitSha` vanish
from the JSON when `undefined`. -/
def encodeMetadata (version : Int) (createdAt tsConfigPath : String)
    (gitRef gitSha : Option String) : Json :=
  .obj ([("version", Json.num version), ("createdAt", Json.str createdAt),
         ("tsConfigPath", Json.str tsConfigPath)]
    ++ (match gitRef with | some r => [("gitRef", Json.str r)] | none => [])
    ++ (match gitSha with | some s => [("gitSha", Json.str s)] | none => []))

/-! ## Snapshot store (persistence/snapshotStorage.ts)

The filesystem is a path-indexed store of JSON documents; `process.cwd()` is
the explicit `cwd` argument and `new Date().toISOString()` the explicit `now`.
-/

abbrev FS := List (String × Json)

def fsSet (fs : FS) (p : String) (j : Json) : FS := jsMapInsert fs p j

structure SaveSnapshotOptions where
  outputPath : Option String := none
  baseDir : Option String := none
  gitRef : Option String := none
  gitSha : Option String := none

def DEFAULT_OUTPUT_PATH : String := ".flowlock/snapshot.json"

def saveSnapshot (snapshot : ProjectSnapshot) (tsConfigPath : String)
    (options : SaveSnapshotOptions) (cwd now : String) (fs : FS) :
    Except String (String × FS) :=
  let baseDir := options.baseDir.getD cwd
  match validatePath (options.outputPath.getD DEFAULT_OUTPUT_PATH) baseDir with
  | .error e => .error e
  | .ok outputPath =>
    match validatePath tsConfigPath baseDir with
    | .error e => .error e
    | .ok resolvedTsConfig =>
      let stored := Json.obj
        [("metadata", encodeMetadata SNAPSHOT_FORMAT_VERSION now
            resolvedTsConfig options.gitRef options.gitSha),
         ("snapshot", encodeSnapshot snapshot)]
      .ok (outputPath, fsSet fs outputPath stored)

structure LoadSnapshotOptions where
  baseDir : Option String := none

/-- `isStoredSnapshot` type guard. -/
def isStoredSnapshot (j : Json) : Bool :=
  isObjLike j &&
  (match getField j "metadata" with
   | some m =>
     isObjLike m &&
       (match getField m "version" with | some (.num _) => true | _ => false)
   | none => false) &&
  (match getField j "snapshot" with | some s => isObjLike s | none => false)

def loadSnapshot (path : String) (options : LoadSnapshotOptions)
    (cwd : String) (fs : FS) : Except String Json :=
  let baseDir := options.baseDir.getD cwd
  match validatePath path baseDir with
  | .error e => .error e
  | .ok resolvedPath =>
    match jsMapGet fs resolvedPath with
    | none => .error ("Snapshot file not found: " ++ resolvedPath)
    | some parsed =>
      if isStoredSnapshot parsed then
        match getField parsed "metadata" with
        | some m =>
          match getField m "version" with
          | some (.num v) =>
            if v ≠ SNAPSHOT_FORMAT_VERSION then
              .error ("Unsupported snapshot version: " ++ toString v ++
                ". Current version is " ++ toString SNAPSHOT_FORMAT_VERSION ++
                ". Please regenerate the snapshot.")
            else .ok parsed
          | _ =>
            .error "Invalid snapshot file: missing required fields (metadata, snapshot)"
        | none =>
          .error "Invalid snapshot file: missing required fields (metadata, snapshot)"
      else
        .error "Invalid snapshot file: missing required fields (metadata, snapshot)"

/-! ## Git-ref snapshots (gitSnapshot module) -/

/-- `ref.replace(/[^a-zA-Z0-9.-]/g, "_")`: the kept character class. -/
def isRefFilenameSafe (c : Char) : Bool := c.isAlphanum || c = '.' || c = '-'

def sanitizeRefForFilename (ref : String) : String :=
  String.mk (ref.data.map fun c => if isRefFilenameSafe c then c else '_')

def defaultBaselinePath (gitRef : String) : String :=
  ".flowlock/baseline-" ++ sanitizeRefForFilename gitRef ++ ".json"

structure SnapshotFromGitOptions where
  cwd : Option String := none
  installDeps : Bool := false

/-- `saveSnapshotFromGitRef`: the git-effectful `snapshotFromGitRef` step
(worktree checkout, extraction, SHA lookup) is abstracted by the `snap` and
`sha` arguments standing for its produced snapshot and resolved SHA; its
input validation (`validateGitRef`, `validatePath` of the tsconfig) is kept,
as it gates the save. -/
def saveSnapshotFromGitRef (snap : ProjectSnapshot) (sha : Option String)
    (tsConfigPath gitRef : String) (outputPath : Option String)
    (options : SnapshotFromGitOptions) (cwd now : String) (fs : FS) :
    Except String (String × FS) :=
  let cwd' := options.cwd.getD cwd
  match validateGitRef gitRef with
  | .error e => .error e
  | .ok _ =>
    match validatePath tsConfigPath cwd' with
    | .error e => .error e
    | .ok _ =>
      let safeRef := sanitizeRefForFilename gitRef
      let outPath := outputPath.getD (".flowlock/baseline-" ++ safeRef ++ ".json")
      saveSnapshot snap (resolveFrom (resolveBase cwd') tsConfigPath)
        { outputPath := some outPath, baseDir := some cwd',
          gitRef := some gitRef, gitSha := sha } cwd now fs

/-! ## Lemmas about the JS map/set models -/

theorem jsMapGet_none_iff {α : Type} (m : List (String × α)) (k : String) :
    jsMapGet m k = none ↔ k ∉ m.map Prod.fst := by
  induction m with
  | nil => simp [jsMapGet]
  | cons p rest ih =>
    obtain ⟨a, b⟩ := p
    by_cases h : a = k
    · subst h; simp [jsMapGet]
    · simp [jsMapGet, h, ih, Ne.symm h]

theorem jsMapGet_isSome_of_mem_keys {α : Type} (m : List (String × α))
    (k : String) (h : k ∈ m.map Prod.fst) : ∃ v, jsMapGet m k = some v := by
  cases hg : jsMapGet m k with
  | none => exact absurd h ((jsMapGet_none_iff m k).mp hg)
  | some v => exact ⟨v, rfl⟩

theorem mem_of_jsMapGet_eq_some {α : Type} (m : List (String × α))
    (k : String) (v : α) (h : jsMapGet m k = some v) : (k, v) ∈ m := by
  induction m with
  | nil => simp [jsMapGet] at h
  | cons p rest ih =>
    obtain ⟨a, b⟩ := p
    by_cases hk : a = k
    · subst hk
      simp [jsMapGet] at h
      simp [h]
    · simp [jsMapGet, hk] at h
      exact List.mem_cons_of_mem _ (ih h)

theorem jsMapGet_eq_some_of_mem {α : Type} (m : List (String × α))
    (k : String) (v : α) (hnd : (m.map Prod.fst).Nodup) (h : (k, v) ∈ m) :
    jsMapGet m k = some v := by
  induction m with
  | nil => simp at h
  | cons p rest ih =>
    obtain ⟨a, b⟩ := p
    simp only [List.map_cons, List.nodup_cons] at hnd
    rcases List.mem_cons.mp h with heq | hmem
    · cases heq
      simp [jsMapGet]
    · have hk : a ≠ k := by
        intro hak
        subst hak
        exact hnd.1 (List.mem_map.mpr ⟨(a, v), hmem, rfl⟩)
      simp [jsMapGet, hk]
      exact ih hnd.2 hmem

theorem any_key_iff {α : Type} (m : List (String × α)) (k : String) :
    (m.any fun p => p.1 = k) = true ↔ k ∈ m.map Prod.fst := by
  simp [List.any_eq_true, List.mem_map]

theorem jsMapInsert_map_fst_mem {α : Type} (m : List (String × α))
    (k : String) (v : α) (x : String) :
    x ∈ (jsMapInsert m k v).map Prod.fst ↔ x ∈ m.map Prod.fst ∨ x = k := by
  unfold jsMapInsert
  split
  · rename_i h
    rw [any_key_iff] at h
    constructor
    · intro hx
      rw [List.map_map] at hx
      rcases List.mem_map.mp hx with ⟨p, hp, he⟩
      by_cases hpk : p.1 = k
      · right
        simp only [Function.comp, if_pos hpk] at he
        exact he.symm
      · left
        simp only [Function.comp, if_neg hpk] at he
        exact he ▸ List.mem_map.mpr ⟨p, hp, rfl⟩
    · intro hx
      rw [List.map_map]
      rcases hx with hx | rfl
      · rcases List.mem_map.mp hx with ⟨p, hp, he⟩
        refine List.mem_map.mpr ⟨p, hp, ?_⟩
        by_cases hpk : p.1 = k
        · simp only [Function.comp, if_pos hpk]
          rw [← he, hpk]
        · simpa [Function.comp, if_neg hpk] using he
      · rcases List.mem_map.mp h with ⟨p, hp, he⟩
        refine List.mem_map.mpr ⟨p, hp, ?_⟩
        simp [Function.comp, he]
  · simp only [List.map_append, List.map_cons, List.map_nil]
    constructor
    · intro hx
      rcases List.mem_append.mp hx with hx | hx
      · exact Or.inl hx
      · simp at hx; exact Or.inr hx
    · intro hx
      rcases hx with hx | rfl
      · exact List.mem_append.mpr (Or.inl hx)
      · exact List.mem_append.mpr (Or.inr (by simp))

theorem jsMapInsert_keys_nodup {α : Type} (m : List (String × α))
    (k : String) (v : α) (hnd : (m.map Prod.fst).Nodup) :
    ((jsMapInsert m k v).map Prod.fst).Nodup := by
  unfold jsMapInsert
  split
  · rw [List.map_map]
    have : (m.map (Prod.fst ∘ fun p => if p.1 = k then (k, v) else p)) =
        m.map Prod.fst := by
      apply List.map_congr_left
      intro p _
      by_cases hpk : p.1 = k
      · simp [Function.comp, hpk]
      · simp [Function.comp, hpk]
    rw [this]
    exact hnd
  · rename_i h
    rw [List.map_append]
    simp only [List.map_cons, List.map_nil]
    apply List.Nodup.append hnd (List.nodup_singleton k)
    intro x hx hx'
    simp at hx'
    subst hx'
    exact h ((any_key_iff m x).mpr hx)

theorem jsMapOfList_keys_nodup {α : Type} (l : List (String × α)) :
    ((jsMapOfList l).map Prod.fst).Nodup := by
  unfold jsMapOfList
  suffices h : ∀ m : List (String × α), (m.map Prod.fst).Nodup →
      ((l.foldl (fun m kv => jsMapInsert m kv.1 kv.2) m).map Prod.fst).Nodup by
    exact h [] (by simp)
  induction l with
  | nil => intro m hm; simpa using hm
  | cons p rest ih =>
    intro m hm
    exact ih _ (jsMapInsert_keys_nodup m p.1 p.2 hm)

theorem jsMapInsert_subset {α : Type} (m : List (String × α)) (k : String)
    (v : α) (kv : String × α) (h : kv ∈ jsMapInsert m k v) :
    kv ∈ m ∨ kv = (k, v) := by
  unfold jsMapInsert at h
  split at h
  · rcases List.mem_map.mp h with ⟨p, hp, he⟩
    by_cases hpk : p.1 = k
    · simp only [if_pos hpk] at he
      exact Or.inr he.symm
    · simp only [if_neg hpk] at he
      exact Or.inl (he ▸ hp)
  · rcases List.mem_append.mp h with h | h
    · exact Or.inl h
    · simp at h; exact Or.inr h

theorem jsMapOfList_subset {α : Type} (l : List (String × α))
    (kv : String × α) (h : kv ∈ jsMapOfList l) : kv ∈ l := by
  unfold jsMapOfList at h
  suffices hs : ∀ m : List (String × α), kv ∈
      l.foldl (fun m kv => jsMapInsert m kv.1 kv.2) m → kv ∈ m ∨ kv ∈ l by
    rcases hs [] h with h' | h'
    · simp at h'
    · exact h'
  clear h
  induction l with
  | nil => intro m hm; exact Or.inl (by simpa using hm)
  | cons p rest ih =>
    intro m hm
    simp only [List.foldl_cons] at hm
    rcases ih _ hm with h' | h'
    · rcases jsMapInsert_subset m p.1 p.2 kv h' with h'' | h''
      · exact Or.inl h''
      · exact Or.inr (by simp [h''])
    · exact Or.inr (List.mem_cons_of_mem _ h')

theorem jsMapOfList_keys_mem {α : Type} (l : List (String × α)) (k : String) :
    k ∈ (jsMapOfList l).map Prod.fst ↔ k ∈ l.map Prod.fst := by
  unfold jsMapOfList
  suffices hs : ∀ m : List (String × α),
      (k ∈ (l.foldl (fun m kv => jsMapInsert m kv.1 kv.2) m).map Prod.fst ↔
        k ∈ m.map Prod.fst ∨ k ∈ l.map Prod.fst) by
    rw [hs []]; simp
  induction l with
  | nil => intro m; simp
  | cons p rest ih =>
    intro m
    simp only [List.foldl_cons]
    rw [ih]
    rw [jsMapInsert_map_fst_mem]
    simp only [List.map_cons, List.mem_cons]
    tauto

theorem jsMapOfList_eq_self {α : Type} (l : List (String × α))
    (hnd : (l.map Prod.fst).Nodup) : jsMapOfList l = l := by
  unfold jsMapOfList
  suffices hs : ∀ m : List (String × α),
      (∀ x, x ∈ m.map Prod.fst → x ∉ l.map Prod.fst) →
      l.foldl (fun m kv => jsMapInsert m kv.1 kv.2) m = m ++ l by
    simpa using hs [] (by simp)
  induction l with
  | nil => intro m _; simp
  | cons p rest ih =>
    intro m hdisj
    simp only [List.foldl_cons]
    have hins : jsMapInsert m p.1 p.2 = m ++ [p] := by
      unfold jsMapInsert
      have : (m.any fun q => q.1 = p.1) = false := by
        rw [Bool.eq_false_iff]
        intro hany
        exact hdisj p.1 ((any_key_iff m p.1).mp hany) (by simp)
      simp [this]
    rw [hins]
    simp only [List.map_cons, List.nodup_cons] at hnd
    rw [ih hnd.2]
    · simp
    · intro x hx
      rw [List.map_append] at hx
      rcases List.mem_append.mp hx with hx | hx
      · intro hxr
        exact hdisj x hx (by simp [hxr])
      · simp at hx
        subst hx
        exact hnd.1

theorem mem_jsSetOfList (l : List String) (x : String) :
    x ∈ jsSetOfList l ↔ x ∈ l := by
  unfold jsSetOfList
  suffices hs : ∀ s : List String,
      (x ∈ l.foldl (fun s k => if s.contains k then s else s ++ [k]) s ↔
        x ∈ s ∨ x ∈ l) by
    rw [hs []]; simp
  induction l with
  | nil => intro s; simp
  | cons a rest ih =>
    intro s
    simp only [List.foldl_cons]
    split
    · rename_i hc
      rw [ih]
      have : a ∈ s := by simpa using hc
      constructor
      · rintro (h | h)
        · exact Or.inl h
        · exact Or.inr (List.mem_cons_of_mem _ h)
      · rintro (h | h)
        · exact Or.inl h
        · rcases List.mem_cons.mp h with rfl | h
          · exact Or.inl this
          · exact Or.inr h
    · rw [ih]
      simp only [List.mem_append, List.mem_singleton, List.mem_cons]
      tauto

theorem flatMap_eq_nil_of {α β : Type} (l : List α) (f : α → List β)
    (h : ∀ x ∈ l, f x = []) : l.flatMap f = [] := by
  induction l with
  | nil => rfl
  | cons a rest ih =>
    simp only [List.flatMap_cons, h a (by simp), List.nil_append]
    exact ih fun x hx => h x (List.mem_cons_of_mem _ hx)

theorem mem_insertSorted (x y : String) (l : List String) :
    y ∈ insertSorted x l ↔ y = x ∨ y ∈ l := by
  induction l with
  | nil => simp [insertSorted]
  | cons a rest ih =>
    unfold insertSorted
    split
    · simp
    · simp only [List.mem_cons, ih]
      tauto

theorem mem_sortStrings (l : List String) (x : String) :
    x ∈ sortStrings l ↔ x ∈ l := by
  unfold sortStrings
  induction l with
  | nil => simp
  | cons a rest ih =>
    simp only [List.foldr_cons, mem_insertSorted, List.mem_cons, ih]

theorem length_insertSorted (x : String) (l : List String) :
    (insertSorted x l).length = l.length + 1 := by
  induction l with
  | nil => rfl
  | cons a rest ih =>
    unfold insertSorted
    split
    · simp
    · simp [ih]

theorem sortStrings_eq_nil_iff (l : List String) :
    sortStrings l = [] ↔ l = [] := by
  have hlen : (sortStrings l).length = l.length := by
    unfold sortStrings
    induction l with
    | nil => rfl
    | cons a rest ih => simp [length_insertSorted, ih]
  constructor
  · intro h
    have := hlen
    rw [h] at this
    exact List.length_eq_zero.mp this.symm
  · intro h; subst h; rfl

theorem jsMapGet_replace_self {α : Type} (rest : List (String × α))
    (k : String) (v : α) (h : k ∈ rest.map Prod.fst) :
    jsMapGet (rest.map (fun p => if p.1 = k then (k, v) else p)) k = some v := by
  induction rest with
  | nil => simp at h
  | cons p rest ih =>
    obtain ⟨a, b⟩ := p
    by_cases hak : a = k
    · subst hak
      rw [List.map_cons]
      have hif : (if ((a, b) : String × α).1 = a then (a, v) else (a, b)) =
          (a, v) := by simp
      rw [hif]
      simp [jsMapGet]
    · rw [List.map_cons]
      have hif : (if ((a, b) : String × α).1 = k then (k, v) else (a, b)) =
          (a, b) := by simp [hak]
      rw [hif]
      simp only [jsMapGet]
      rw [if_neg hak]
      apply ih
      simp only [List.map_cons, List.mem_cons] at h
      rcases h with h | h
      · exact absurd h.symm hak
      · exact h

theorem jsMapGet_insert_self {α : Type} (m : List (String × α)) (k : String)
    (v : α) : jsMapGet (jsMapInsert m k v) k = some v := by
  unfold jsMapInsert
  split
  · rename_i h
    rw [any_key_iff] at h
    exact jsMapGet_replace_self m k v h
  · rename_i h
    induction m with
    | nil => simp [jsMapGet]
    | cons p rest ih =>
      obtain ⟨a, b⟩ := p
      have hak : a ≠ k := by
        intro hak
        apply h
        simp [List.any_cons, hak]
      simp only [List.cons_append, jsMapGet, if_neg hak]
      apply ih
      intro hany
      apply h
      simp only [List.any_cons, hany, Bool.or_true]

theorem dropWhile_eq_self_of_not {α : Type} (p : α → Bool) (l : List α)
    (h : ∀ c ∈ l, ¬p c) : l.dropWhile p = l := by
  cases l with
  | nil => rfl
  | cons a rest =>
    have : p a = false := by
      have := h a (by simp)
      simpa using this
    simp [List.dropWhile_cons, this]

theorem trimChars_eq_self_of_no_ws (l : List Char)
    (h : ∀ c ∈ l, ¬c.isWhitespace) : trimChars l = l := by
  unfold trimChars
  rw [dropWhile_eq_self_of_not _ _ h]
  rw [dropWhile_eq_self_of_not _ _ (by intro c hc; exact h c (List.mem_reverse.mp hc))]
  exact List.reverse_reverse l

theorem strTrim_eq_self_of_no_ws (s : String)
    (h : ∀ c ∈ s.data, ¬c.isWhitespace) : strTrim s = s := by
  unfold strTrim
  rw [trimChars_eq_self_of_no_ws s.data h]

theorem strTrim_length_le (s : String) : (strTrim s).length ≤ s.length := by
  show (trimChars s.data).length ≤ s.data.length
  unfold trimChars
  calc ((s.data.dropWhile Char.isWhitespace).reverse.dropWhile
          Char.isWhitespace).reverse.length
      = ((s.data.dropWhile Char.isWhitespace).reverse.dropWhile
          Char.isWhitespace).length := List.length_reverse _
    _ ≤ (s.data.dropWhile Char.isWhitespace).reverse.length :=
        List.Sublist.length_le (List.dropWhile_sublist _)
    _ = (s.data.dropWhile Char.isWhitespace).length := List.length_reverse _
    _ ≤ s.data.length := List.Sublist.length_le (List.dropWhile_sublist _)

theorem dropWhile_eq_self_of_head {α : Type} (p : α → Bool) (l : List α)
    (h : ∀ c, l.head? = some c → ¬p c) : l.dropWhile p = l := by
  cases l with
  | nil => rfl
  | cons a rest =>
    have : p a = false := by simpa using h a rfl
    simp [List.dropWhile_cons, this]

theorem strTrim_eq_self_of_ends (s : String)
    (h1 : ∀ c, s.data.head? = some c → ¬c.isWhitespace)
    (h2 : ∀ c, s.data.getLast? = some c → ¬c.isWhitespace) : strTrim s = s := by
  show String.mk (trimChars s.data) = s
  unfold trimChars
  rw [dropWhile_eq_self_of_head _ _ h1]
  rw [dropWhile_eq_self_of_head _ _
    (by intro c hc; exact h2 c ((List.head?_reverse s.data) ▸ hc))]
  rw [List.reverse_reverse]

/-! ## Change-kind predicates -/

def SignatureChange.isAdded : SignatureChange → Bool
  | .parameterAdded _ _ => true
  | _ => false

def SignatureChange.isRemoved : SignatureChange → Bool
  | .parameterRemoved _ _ => true
  | _ => false

def SignatureChange.isTypeChanged : SignatureChange → Bool
  | .parameterTypeChanged _ _ _ => true
  | _ => false

def SignatureChange.isReturnChanged : SignatureChange → Bool
  | .returnTypeChanged _ _ _ => true
  | _ => false

theorem paramsEqual_refl (p : ParameterSignature) : paramsEqual p p = true := by
  simp [paramsEqual]

/-! ## Decomposition of the comparator

Named pieces of `compareSignatures` / `compareSnapshots`, each equal to the
corresponding part of the definition by `rfl`.
-/

def paramsMap (f : FunctionSignature) : List (String × ParameterSignature) :=
  jsMapOfList (f.parameters.map fun p => (p.name, p))

def emitFirst (bm : List (String × ParameterSignature))
    (kv : String × ParameterSignature) : List SignatureChange :=
  match jsMapGet bm kv.1 with
  | none => [SignatureChange.parameterAdded kv.2 (!kv.2.optional)]
  | some beforeParam =>
    if paramsEqual beforeParam kv.2 then []
    else [SignatureChange.parameterTypeChanged beforeParam kv.2 true]

def emitRemoved (am : List (String × ParameterSignature))
    (kv : String × ParameterSignature) : List SignatureChange :=
  if jsMapHas am kv.1 then [] else [SignatureChange.parameterRemoved kv.2 true]

def returnPart (before after : FunctionSignature) : List SignatureChange :=
  if normalizeForComparison before.returnType ≠
      normalizeForComparison after.returnType then
    [SignatureChange.returnTypeChanged before.returnType after.returnType true]
  else []

theorem compareSignatures_eq (before after : FunctionSignature) :
    compareSignatures before after =
      (paramsMap after).flatMap (emitFirst (paramsMap before)) ++
      (paramsMap before).flatMap (emitRemoved (paramsMap after)) ++
      returnPart before after := rfl

theorem compareSignatures_self (f : FunctionSignature) :
    compareSignatures f f = [] := by
  rw [compareSignatures_eq]
  have hget : ∀ kv ∈ paramsMap f, jsMapGet (paramsMap f) kv.1 = some kv.2 := by
    intro kv hkv
    exact jsMapGet_eq_some_of_mem _ _ _ (jsMapOfList_keys_nodup _) hkv
  have h1 : (paramsMap f).flatMap (emitFirst (paramsMap f)) = [] := by
    apply flatMap_eq_nil_of
    intro kv hkv
    unfold emitFirst
    rw [hget kv hkv]
    simp [paramsEqual_refl]
  have h2 : (paramsMap f).flatMap (emitRemoved (paramsMap f)) = [] := by
    apply flatMap_eq_nil_of
    intro kv hkv
    unfold emitRemoved jsMapHas
    rw [hget kv hkv]
    simp
  have h3 : returnPart f f = [] := by
    unfold returnPart
    simp
  rw [h1, h2, h3]
  rfl

/-! Pieces of `compareSnapshots`. -/

def functionKeys (s : ProjectSnapshot) : List String :=
  jsSetOfList (s.symbols.functions.map Prod.fst)

def addedKeysOf (before after : ProjectSnapshot) : List String :=
  (functionKeys after).filter fun k => !(functionKeys before).contains k

def removedKeysOf (before after : ProjectSnapshot) : List String :=
  (functionKeys before).filter fun k => !(functionKeys after).contains k

def modifiedOf (before after : ProjectSnapshot) : List FunctionDrift :=
  (functionKeys after).filterMap fun k =>
    if (functionKeys before).contains k then
      match jsMapGet before.symbols.functions k,
            jsMapGet after.symbols.functions k with
      | some beforeFn, some afterFn =>
        let changes := compareSignatures beforeFn afterFn
        if changes.length > 0 then
          some ⟨afterFn.name, beforeFn.filePath, afterFn.filePath, changes⟩
        else none
      | _, _ => none
    else none

theorem compareSnapshots_eq (before after : ProjectSnapshot) :
    compareSnapshots before after =
      { modifiedFunctions := modifiedOf before after
        addedFunctions := sortStrings (addedKeysOf before after)
        removedFunctions := sortStrings (removedKeysOf before after)
        hasBreakingChanges := computeHasBreakingChanges (modifiedOf before after)
          (sortStrings (removedKeysOf before after))
        suggestedVersion := computeSuggestedVersion (modifiedOf before after)
          (sortStrings (addedKeysOf before after))
          (sortStrings (removedKeysOf before after)) } := rfl

/-- C8: For every registry R (wrapped as a ProjectSnapshot), comparing R
against itself yields empty addedFunctions, empty removedFunctions, empty
modifiedFunctions, `hasBreakingChanges = false`, and
`suggestedVersion = "patch"`. -/
theorem compareSnapshots_self (R : ProjectSnapshot) :
    compareSnapshots R R =
      { modifiedFunctions := [], addedFunctions := [], removedFunctions := [],
        hasBreakingChanges := false, suggestedVersion := "patch" } := by
  rw [compareSnapshots_eq]
  have hadded : addedKeysOf R R = [] := by
    unfold addedKeysOf
    rw [List.filter_eq_nil_iff]
    intro k hk
    simp [hk]
  have hremoved : removedKeysOf R R = [] := by
    unfold removedKeysOf
    rw [List.filter_eq_nil_iff]
    intro k hk
    simp [hk]
  have hmod : modifiedOf R R = [] := by
    unfold modifiedOf
    rw [List.filterMap_eq_nil_iff]
    intro k hk
    rw [if_pos (List.elem_iff.mpr hk)]
    have hkeys : k ∈ R.symbols.functions.map Prod.fst :=
      (mem_jsSetOfList _ _).mp hk
    obtain ⟨f, hf⟩ := jsMapGet_isSome_of_mem_keys _ _ hkeys
    rw [hf]
    simp [compareSignatures_self]
  rw [hadded, hremoved, hmod]
  rfl

theorem computeHasBreakingChanges_iff (M : List FunctionDrift)
    (Rm : List String) :
    computeHasBreakingChanges M Rm = true ↔
      Rm ≠ [] ∨ ∃ fd ∈ M, ∃ c ∈ fd.changes, c.breaking = true := by
  unfold computeHasBreakingChanges
  by_cases h : Rm = []
  · subst h
    simp [List.any_eq_true]
  · have hl : Rm.length > 0 := List.length_pos.mpr h
    simp [hl, h]

theorem computeSuggestedVersion_cases (M : List FunctionDrift)
    (A Rm : List String) :
    (computeSuggestedVersion M A Rm = "major" ↔
      Rm ≠ [] ∨ ∃ fd ∈ M, ∃ c ∈ fd.changes, c.breaking = true) ∧
    (computeSuggestedVersion M A Rm = "minor" ↔
      Rm = [] ∧ (¬∃ fd ∈ M, ∃ c ∈ fd.changes, c.breaking = true) ∧
        (A ≠ [] ∨ M ≠ [])) ∧
    (computeSuggestedVersion M A Rm = "patch" ↔
      Rm = [] ∧ A = [] ∧ M = []) := by
  unfold computeSuggestedVersion
  by_cases h1 : Rm = []
  · subst h1
    rw [if_neg (by simp)]
    by_cases h2 : (M.any fun fn => fn.changes.any fun c => c.breaking) = true
    · rw [if_pos h2]
      rw [List.any_eq_true] at h2
      obtain ⟨fd, hfd, hc⟩ := h2
      rw [List.any_eq_true] at hc
      obtain ⟨c, hcm, hcb⟩ := hc
      have hex : ∃ fd ∈ M, ∃ c ∈ fd.changes, c.breaking = true :=
        ⟨fd, hfd, c, hcm, hcb⟩
      have hM : M ≠ [] := by
        intro h; subst h; simp at hfd
      refine ⟨by simp [hex], ?_, ?_⟩
      · constructor
        · intro h; exact absurd h (by decide)
        · rintro ⟨-, hno, -⟩; exact absurd hex hno
      · constructor
        · intro h; exact absurd h (by decide)
        · rintro ⟨-, -, hMnil⟩; exact absurd hMnil hM
    · rw [if_neg h2]
      have hno : ¬∃ fd ∈ M, ∃ c ∈ fd.changes, c.breaking = true := by
        intro ⟨fd, hfd, c, hcm, hcb⟩
        exact h2 (List.any_eq_true.mpr ⟨fd, hfd, List.any_eq_true.mpr ⟨c, hcm, hcb⟩⟩)
      by_cases h3 : A = [] ∧ M = []
      · rw [if_neg (by simp [h3.1, h3.2])]
        refine ⟨?_, ?_, by simp [h3.1, h3.2]⟩
        · constructor
          · intro h; exact absurd h (by decide)
          · rintro (h | h)
            · exact absurd rfl h
            · exact absurd h hno
        · constructor
          · intro h; exact absurd h (by decide)
          · rintro ⟨-, -, (h | h)⟩
            · exact absurd h3.1 h
            · exact absurd h3.2 h
      · have h3' : A ≠ [] ∨ M ≠ [] := by tauto
        rw [if_pos (by
          rcases h3' with h | h
          · simp [List.length_pos.mpr h]
          · simp [List.length_pos.mpr h])]
        refine ⟨?_, by simp [hno, h3'], ?_⟩
        · constructor
          · intro h; exact absurd h (by decide)
          · rintro (h | h)
            · exact absurd rfl h
            · exact absurd h hno
        · constructor
          · intro h; exact absurd h (by decide)
          · rintro ⟨-, hA, hM⟩
            rcases h3' with h | h
            · exact absurd hA h
            · exact absurd hM h
  · rw [if_pos (by simp [List.length_pos.mpr h1])]
    refine ⟨by simp [h1], ?_, ?_⟩
    · constructor
      · intro h; exact absurd h (by decide)
      · rintro ⟨h, -, -⟩; exact absurd h h1
    · constructor
      · intro h; exact absurd h (by decide)
      · rintro ⟨h, -, -⟩; exact absurd h h1

/-- C1: compareSnapshots sets `hasBreakingChanges` to true exactly when
`removedFunctions` is non-empty or some change of some modified function is
breaking, and `suggestedVersion` follows the ordered policy (removed →
major; breaking modification → major; added or modified → minor; else
patch); removing any function always yields `hasBreakingChanges = true` and
`suggestedVersion = "major"` regardless of other changes. -/
theorem compareSnapshots_breaking_policy (before after : ProjectSnapshot) :
    ((compareSnapshots before after).hasBreakingChanges = true ↔
      (compareSnapshots before after).removedFunctions ≠ [] ∨
        ∃ fd ∈ (compareSnapshots before after).modifiedFunctions,
          ∃ c ∈ fd.changes, c.breaking = true) ∧
    ((compareSnapshots before after).suggestedVersion = "major" ↔
      (compareSnapshots before after).removedFunctions ≠ [] ∨
        ∃ fd ∈ (compareSnapshots before after).modifiedFunctions,
          ∃ c ∈ fd.changes, c.breaking = true) ∧
    ((compareSnapshots before after).suggestedVersion = "minor" ↔
      (compareSnapshots before after).removedFunctions = [] ∧
      (¬∃ fd ∈ (compareSnapshots before after).modifiedFunctions,
          ∃ c ∈ fd.changes, c.breaking = true) ∧
      ((compareSnapshots before after).addedFunctions ≠ [] ∨
        (compareSnapshots before after).modifiedFunctions ≠ [])) ∧
    ((compareSnapshots before after).suggestedVersion = "patch" ↔
      (compareSnapshots before after).removedFunctions = [] ∧
      (compareSnapshots before after).addedFunctions = [] ∧
      (compareSnapshots before after).modifiedFunctions = []) ∧
    (∀ k, k ∈ before.symbols.functions.map Prod.fst →
        k ∉ after.symbols.functions.map Prod.fst →
        (compareSnapshots before after).hasBreakingChanges = true ∧
        (compareSnapshots before after).suggestedVersion = "major") := by
  rw [compareSnapshots_eq]
  refine ⟨computeHasBreakingChanges_iff _ _,
    (computeSuggestedVersion_cases _ _ _).1,
    (computeSuggestedVersion_cases _ _ _).2.1,
    (computeSuggestedVersion_cases _ _ _).2.2, ?_⟩
  intro k hkb hka
  have hkrem : k ∈ removedKeysOf before after := by
    unfold removedKeysOf
    refine List.mem_filter.mpr ⟨(mem_jsSetOfList _ _).mpr hkb, ?_⟩
    have : k ∉ functionKeys after := fun h => hka ((mem_jsSetOfList _ _).mp h)
    simp [this]
  have hrm : sortStrings (removedKeysOf before after) ≠ [] := by
    intro h
    rw [sortStrings_eq_nil_iff] at h
    rw [h] at hkrem
    simp at hkrem
  exact ⟨(computeHasBreakingChanges_iff _ _).mpr (Or.inl hrm),
    (computeSuggestedVersion_cases _ _ _).1.mpr (Or.inl hrm)⟩

theorem str_length_zero_iff (s : String) : s.length = 0 ↔ s = "" := by
  constructor
  · intro h
    have hd : s.data = [] := List.length_eq_zero.mp h
    exact String.ext hd
  · intro h; subst h; rfl

theorem isWhitespace_unsafe (c : Char) (h : c.isWhitespace = true) :
    isUnsafeRefChar c = true := by
  simp [isUnsafeRefChar, h]

/-- C4: validateGitRef rejects empty or whitespace-only input, input longer
than 256 characters, input containing a control character, and input
containing a reserved shell metacharacter; every other input is returned
trimmed.  `validateGitRef("main; rm -rf /")` fails with the
invalid-character error and `validateGitRef("origin/main")` returns
`"origin/main"`. -/
theorem validateGitRef_spec (ref : String) :
    (∀ out, validateGitRef ref = .ok out → out = strTrim ref) ∧
    ((∃ e, validateGitRef ref = .error e) ↔
      strTrim ref = "" ∨ ref.length > 256 ∨
        (∃ c ∈ ref.data, isControlChar c = true) ∨
        (∃ c ∈ ref.data, isUnsafeRefChar c = true)) ∧
    validateGitRef "main; rm -rf /" =
      .error "Git ref contains invalid characters. Use only alphanumeric, hyphens, dots, slashes." ∧
    validateGitRef "origin/main" = .ok "origin/main" := by
  refine ⟨?_, ⟨?_, ?_⟩, by rfl, by rfl⟩
  · intro out hout
    simp only [validateGitRef] at hout
    split_ifs at hout
    all_goals cases hout
    all_goals rfl
  · intro ⟨e, he⟩
    simp only [validateGitRef] at he
    split_ifs at he with h1 h2 h3
    · exact Or.inl ((str_length_zero_iff _).mp h1)
    · refine Or.inr (Or.inl ?_)
      calc 256 < (strTrim ref).length := h2
        _ ≤ ref.length := strTrim_length_le ref
    · rcases Bool.or_eq_true_iff.mp h3 with h | h
      · exact Or.inr (Or.inr (Or.inl (List.any_eq_true.mp h)))
      · exact Or.inr (Or.inr (Or.inr (List.any_eq_true.mp h)))
  · intro h
    simp only [validateGitRef]
    split_ifs with h1 h2 h3
    · exact ⟨_, rfl⟩
    · exact ⟨_, rfl⟩
    · exact ⟨_, rfl⟩
    · exfalso
      rw [Bool.or_eq_true_iff, not_or] at h3
      rcases h with h | h | h | h
      · exact h1 (by rw [h]; rfl)
      · have hnounsafe : ∀ c ∈ ref.data, ¬c.isWhitespace := by
          intro c hc hws
          exact h3.2 (List.any_eq_true.mpr ⟨c, hc, isWhitespace_unsafe c hws⟩)
        have htrim : strTrim ref = ref := strTrim_eq_self_of_no_ws ref hnounsafe
        rw [htrim] at h2
        exact h2 h
      · exact h3.1 (List.any_eq_true.mpr h)
      · exact h3.2 (List.any_eq_true.mpr h)

/-- Witness for C4 at the concrete ref `"origin/main"`. -/
theorem validateGitRef_spec_witness :
    validateGitRef "origin/main" = .ok "origin/main" :=
  (validateGitRef_spec "origin/main").2.2.2

/-- Witness for C1: removing the only function of a snapshot makes the
report breaking with a major bump. -/
theorem compareSnapshots_breaking_policy_witness :
    (compareSnapshots
        ⟨⟨[("function:f.ts::f", ⟨"f", [], "void", "f.ts", true⟩)], [], []⟩⟩
        ⟨⟨[], [], []⟩⟩).hasBreakingChanges = true ∧
    (compareSnapshots
        ⟨⟨[("function:f.ts::f", ⟨"f", [], "void", "f.ts", true⟩)], [], []⟩⟩
        ⟨⟨[], [], []⟩⟩).suggestedVersion = "major" :=
  (compareSnapshots_breaking_policy _ _).2.2.2.2 "function:f.ts::f"
    (by simp) (by simp)

/-- C6: loading a well-formed stored snapshot whose `metadata.version`
differs from the engine's supported format version (1) fails, and the
failure message names both the found and the supported version. -/
theorem loadSnapshot_version_mismatch (path : String)
    (options : LoadSnapshotOptions) (cwd : String) (fs : FS) (rp : String)
    (doc m : Json) (v : Int)
    (hvp : validatePath path (options.baseDir.getD cwd) = .ok rp)
    (hget : jsMapGet fs rp = some doc)
    (hstored : isStoredSnapshot doc = true)
    (hmeta : getField doc "metadata" = some m)
    (hver : getField m "version" = some (.num v))
    (hne : v ≠ SNAPSHOT_FORMAT_VERSION) :
    ∃ msg, loadSnapshot path options cwd fs = .error msg ∧
      strContains msg (toString v) = true ∧
      strContains msg (toString SNAPSHOT_FORMAT_VERSION) = true := by
  have hrun : loadSnapshot path options cwd fs =
      .error ("Unsupported snapshot version: " ++ toString v ++
        ". Current version is " ++ toString SNAPSHOT_FORMAT_VERSION ++
        ". Please regenerate the snapshot.") := by
    simp only [loadSnapshot, hvp, hget, hmeta, hver, hstored, if_true]
    rw [if_pos hne]
  refine ⟨_, hrun, ?_, ?_⟩
  · show hasInfix _ _ = true
    have hdata : ("Unsupported snapshot version: " ++ toString v ++
        ". Current version is " ++ toString SNAPSHOT_FORMAT_VERSION ++
        ". Please regenerate the snapshot.").data =
        ("Unsupported snapshot version: ").data ++ ((toString v).data ++
          ((". Current version is " ++ toString SNAPSHOT_FORMAT_VERSION ++
            ". Please regenerate the snapshot.").data)) := by
      simp [List.append_assoc]
    rw [hdata]
    exact hasInfix_parts _ _ _
  · show hasInfix _ _ = true
    have hdata : ("Unsupported snapshot version: " ++ toString v ++
        ". Current version is " ++ toString SNAPSHOT_FORMAT_VERSION ++
        ". Please regenerate the snapshot.").data =
        (("Unsupported snapshot version: " ++ toString v ++
          ". Current version is ").data) ++
          ((toString SNAPSHOT_FORMAT_VERSION).data ++
            (". Please regenerate the snapshot.").data) := by
      simp [List.append_assoc]
    rw [hdata]
    exact hasInfix_parts _ _ _

/-- Witness for C6: a stored document with version 99 fails to load with a
message mentioning both 99 and 1. -/
theorem loadSnapshot_version_mismatch_witness :
    ∃ msg, loadSnapshot "snap.json" ⟨some "/p"⟩ "/p"
        [("/p/snap.json", Json.obj
          [("metadata", Json.obj [("version", Json.num 99)]),
           ("snapshot", Json.obj [])])] = .error msg ∧
      strContains msg (toString (99 : Int)) = true ∧
      strContains msg (toString SNAPSHOT_FORMAT_VERSION) = true :=
  loadSnapshot_version_mismatch "snap.json" ⟨some "/p"⟩ "/p" _ "/p/snap.json"
    _ _ 99 (by rfl) (by rfl) (by rfl) (by rfl) (by rfl) (by decide)

/-- On success, validatePath returns the trimmed candidate resolved against
the resolved base. -/
theorem validatePath_ok_eq (x b y : String) (h : validatePath x b = .ok y) :
    y = resolveFrom (resolveBase b) (strTrim x) := by
  simp only [validatePath] at h
  split_ifs at h
  all_goals cases h
  rfl

theorem resolveFrom_isAbs (base p : String) :
    strStartsWith (resolveFrom base p) "/" = true := by
  unfold resolveFrom
  split <;> rfl

/-- C3 counterexample: the claim predicts success for the whitespace-only
candidate `" "` (it is neither empty, nor over-long, nor does its relative
path escape the base), yet `validatePath` rejects it, because the code trims
the candidate before the emptiness check; and for the root base directory
the claim's traversal instance `../../../etc/passwd` is accepted, not
rejected. -/
theorem validatePath_claim_counterexample :
    ((" " : String) ≠ "" ∧ (" " : String).length ≤ 4096 ∧
      strStartsWith (posixRelative (resolveBase "/base")
        (resolveFrom (resolveBase "/base") " ")) ".." = false ∧
      strStartsWith (posixRelative (resolveBase "/base")
        (resolveFrom (resolveBase "/base") " ")) "/" = false ∧
      validatePath " " "/base" = .error "Path cannot be empty") ∧
    validatePath "../../../etc/passwd" "/" = .ok "/etc/passwd" := by
  exact ⟨⟨by decide, by decide, rfl, rfl, rfl⟩, rfl⟩

/-- C3 (amended): validatePath trims the candidate first; it rejects input
that is empty after trimming and trimmed input longer than 4096 characters,
resolves the trimmed candidate against the base directory, rejects it when
the relative path from base to the resolved path starts with a
parent-directory marker or is itself absolute, and otherwise returns the
resolved absolute path.  For a base directory strictly below the root such
as `/base`, `validatePath("../../../etc/passwd", base)` fails with the
traversal error and `validatePath("tsconfig.json", base)` succeeds,
returning an absolute path under the base. -/
theorem validatePath_spec (path baseDir : String) :
    (strTrim path = "" →
      validatePath path baseDir = .error "Path cannot be empty") ∧
    (strTrim path ≠ "" → (strTrim path).length > 4096 →
      validatePath path baseDir = .error "Path exceeds maximum length (4096)") ∧
    (strTrim path ≠ "" → (strTrim path).length ≤ 4096 →
      (strStartsWith (posixRelative (resolveBase baseDir)
          (resolveFrom (resolveBase baseDir) (strTrim path))) ".." = true ∨
        strStartsWith (posixRelative (resolveBase baseDir)
          (resolveFrom (resolveBase baseDir) (strTrim path))) "/" = true) →
      validatePath path baseDir = .error "Path resolves outside allowed directory") ∧
    (strTrim path ≠ "" → (strTrim path).length ≤ 4096 →
      strStartsWith (posixRelative (resolveBase baseDir)
        (resolveFrom (resolveBase baseDir) (strTrim path))) ".." = false →
      strStartsWith (posixRelative (resolveBase baseDir)
        (resolveFrom (resolveBase baseDir) (strTrim path))) "/" = false →
      validatePath path baseDir =
          .ok (resolveFrom (resolveBase baseDir) (strTrim path)) ∧
        strStartsWith (resolveFrom (resolveBase baseDir) (strTrim path)) "/"
          = true) ∧
    validatePath "../../../etc/passwd" "/base" =
      .error "Path resolves outside allowed directory" ∧
    validatePath "tsconfig.json" "/base" = .ok "/base/tsconfig.json" ∧
    strStartsWith "/base/tsconfig.json" "/base" = true := by
  refine ⟨?_, ?_, ?_, ?_, rfl, rfl, rfl⟩
  · intro h
    have hz : (strTrim path).length = 0 := by rw [h]; rfl
    simp only [validatePath]
    rw [if_pos hz]
  · intro h1 h2
    have hz : ¬(strTrim path).length = 0 := by
      intro hz
      exact h1 ((str_length_zero_iff _).mp hz)
    simp only [validatePath]
    rw [if_neg hz, if_pos]
    exact h2
  · intro h1 h2 h3
    have hz : ¬(strTrim path).length = 0 := by
      intro hz
      exact h1 ((str_length_zero_iff _).mp hz)
    simp only [validatePath]
    rw [if_neg hz, if_neg (by unfold MAX_PATH_LENGTH; omega), if_pos]
    rcases h3 with h | h <;> simp [h]
  · intro h1 h2 h3 h4
    have hz : ¬(strTrim path).length = 0 := by
      intro hz
      exact h1 ((str_length_zero_iff _).mp hz)
    refine ⟨?_, resolveFrom_isAbs _ _⟩
    simp only [validatePath]
    rw [if_neg hz, if_neg (by unfold MAX_PATH_LENGTH; omega), if_neg (by simp [h3, h4])]

/-- Witness for C3 (amended) at the concrete candidate `"src/index.ts"`. -/
theorem validatePath_spec_witness :
    validatePath "src/index.ts" "/proj" =
        .ok (resolveFrom (resolveBase "/proj") (strTrim "src/index.ts")) ∧
      strStartsWith (resolveFrom (resolveBase "/proj")
        (strTrim "src/index.ts")) "/" = true :=
  (validatePath_spec "src/index.ts" "/proj").2.2.2.1
    (by decide) (by decide) rfl rfl

theorem keyed_map_fst (l : List ParameterSignature) :
    ((l.map fun p => (p.name, p)).map Prod.fst) =
      l.map ParameterSignature.name := by
  rw [List.map_map]
  rfl

theorem paramsMap_keys (f : FunctionSignature) :
    ((f.parameters.map fun p => (p.name, p)).map Prod.fst) =
      f.parameters.map ParameterSignature.name :=
  keyed_map_fst f.parameters

/-- C10 counterexample: two signatures whose parameter lists are the same
multiset (swapped duplicate-named parameters) and whose return types agree,
yet compareSignatures reports drift — the per-name maps keep only the last
parameter of each name. -/
theorem compareSignatures_perm_counterexample :
    List.Perm
      (FunctionSignature.parameters
        ⟨"f", [⟨"a", "string", false⟩, ⟨"a", "number", false⟩], "void",
          "x.ts", true⟩)
      (FunctionSignature.parameters
        ⟨"f", [⟨"a", "number", false⟩, ⟨"a", "string", false⟩], "void",
          "x.ts", true⟩) ∧
    normalizeForComparison "void" = normalizeForComparison "void" ∧
    compareSignatures
      ⟨"f", [⟨"a", "number", false⟩, ⟨"a", "string", false⟩], "void",
        "x.ts", true⟩
      ⟨"f", [⟨"a", "string", false⟩, ⟨"a", "number", false⟩], "void",
        "x.ts", true⟩ ≠ [] := by
  refine ⟨?_, rfl, ?_⟩
  · exact List.Perm.swap _ _ _
  · intro h
    exact absurd h (by decide)

/-- C10 (amended): for signatures whose parameter names are pairwise
distinct, compareSignatures is invariant under permutation of the parameter
lists — same multiset of parameters plus equal normalized return types
yields the empty change list. -/
theorem compareSignatures_perm_invariant (before after : FunctionSignature)
    (hperm : after.parameters.Perm before.parameters)
    (hnodup : (before.parameters.map ParameterSignature.name).Nodup)
    (hret : normalizeForComparison before.returnType =
      normalizeForComparison after.returnType) :
    compareSignatures before after = [] := by
  have hnodupA : (after.parameters.map ParameterSignature.name).Nodup :=
    ((hperm.map ParameterSignature.name).nodup_iff).mpr hnodup
  have hmapB : paramsMap before = before.parameters.map fun p => (p.name, p) := by
    unfold paramsMap
    exact jsMapOfList_eq_self _ (by rw [paramsMap_keys]; exact hnodup)
  have hmapA : paramsMap after = after.parameters.map fun p => (p.name, p) := by
    unfold paramsMap
    exact jsMapOfList_eq_self _ (by rw [paramsMap_keys]; exact hnodupA)
  rw [compareSignatures_eq]
  have h1 : (paramsMap after).flatMap (emitFirst (paramsMap before)) = [] := by
    apply flatMap_eq_nil_of
    intro kv hkv
    rw [hmapA] at hkv
    obtain ⟨q, hq, rfl⟩ := List.mem_map.mp hkv
    have hqb : q ∈ before.parameters := hperm.mem_iff.mp hq
    have hget : jsMapGet (paramsMap before) q.name = some q := by
      apply jsMapGet_eq_some_of_mem
      · rw [hmapB, paramsMap_keys]; exact hnodup
      · rw [hmapB]; exact List.mem_map.mpr ⟨q, hqb, rfl⟩
    unfold emitFirst
    rw [hget]
    simp [paramsEqual_refl]
  have h2 : (paramsMap before).flatMap (emitRemoved (paramsMap after)) = [] := by
    apply flatMap_eq_nil_of
    intro kv hkv
    rw [hmapB] at hkv
    obtain ⟨q, hq, rfl⟩ := List.mem_map.mp hkv
    have hqa : q ∈ after.parameters := hperm.mem_iff.mpr hq
    have hk : q.name ∈ (paramsMap after).map Prod.fst := by
      rw [hmapA, paramsMap_keys]
      exact List.mem_map.mpr ⟨q, hqa, rfl⟩
    obtain ⟨v, hv⟩ := jsMapGet_isSome_of_mem_keys _ _ hk
    unfold emitRemoved jsMapHas
    rw [hv]
    rfl
  have h3 : returnPart before after = [] := by
    unfold returnPart
    rw [if_neg (by simp [hret])]
  rw [h1, h2, h3]
  rfl

/-- Witness for C10 (amended): swapping two distinct-named parameters is not
reported as drift. -/
theorem compareSignatures_perm_invariant_witness :
    compareSignatures
      ⟨"f", [⟨"a", "number", false⟩, ⟨"b", "string", true⟩], "void",
        "x.ts", true⟩
      ⟨"f", [⟨"b", "string", true⟩, ⟨"a", "number", false⟩], "void",
        "x.ts", true⟩ = [] :=
  compareSignatures_perm_invariant _ _ (List.Perm.swap _ _ _)
    (by decide) rfl

theorem strTrim_defaultBaselinePath (ref : String) :
    strTrim (defaultBaselinePath ref) = defaultBaselinePath ref := by
  apply strTrim_eq_self_of_ends
  · intro c hc
    have hh : (defaultBaselinePath ref).data.head? = some '.' := rfl
    rw [hh] at hc
    cases hc
    decide
  · intro c hc
    have hl : (defaultBaselinePath ref).data.getLast? = some 'n' := by
      show ((".flowlock/baseline-" ++ sanitizeRefForFilename ref ++
        ".json").data).getLast? = some 'n'
      have hd : (".flowlock/baseline-" ++ sanitizeRefForFilename ref ++
          ".json").data =
          ((".flowlock/baseline-" ++ sanitizeRefForFilename ref).data) ++
            (".json" : String).data := rfl
      rw [hd, List.getLast?_append]
      rfl
    rw [hl] at hc
    cases hc
    decide

theorem isRefFilenameSafe_iff (c : Char) :
    isRefFilenameSafe c = true ↔
      (c.isAlphanum = true ∨ c = '.' ∨ c = '-') := by
  simp [isRefFilenameSafe]
  tauto

/-- C9 counterexample: `saveSnapshotFromGitRef` with ref `"v1.0"` and no
output path persists to `.flowlock/baseline-v1.0.json`, in which the dots of
the ref — non-alphanumeric characters — are not replaced. -/
theorem saveSnapshotFromGitRef_claim_counterexample :
    (∃ fsOut, saveSnapshotFromGitRef ⟨⟨[], [], []⟩⟩ none "tsconfig.json"
        "v1.0" none ⟨none, false⟩ "/repo" "2025-01-01T00:00:00.000Z" [] =
      .ok ("/repo/.flowlock/baseline-v1.0.json", fsOut)) ∧
    sanitizeRefForFilename "v1.0" = "v1.0" ∧
    '.' ∈ ("v1.0" : String).data ∧
    ('.').isAlphanum = false := by
  exact ⟨⟨_, rfl⟩, rfl, by decide, by decide⟩

/-- C9 (amended): when no output path is given, `saveSnapshotFromGitRef`
persists the snapshot under the ref-derived default filename
`.flowlock/baseline-{ref}.json`, in which every character of the ref that is
not alphanumeric, a dot, or a hyphen has been replaced by an underscore,
and the alphanumeric, dot, and hyphen characters are kept. -/
theorem saveSnapshotFromGitRef_default_path (snap : ProjectSnapshot)
    (sha : Option String) (tsConfigPath gitRef : String)
    (options : SnapshotFromGitOptions) (cwd now : String) (fs : FS)
    (p : String) (fsOut : FS)
    (hok : saveSnapshotFromGitRef snap sha tsConfigPath gitRef none options
        cwd now fs = .ok (p, fsOut)) :
    p = resolveFrom (resolveBase (options.cwd.getD cwd))
        (defaultBaselinePath gitRef) ∧
    (∃ doc, jsMapGet fsOut p = some doc ∧
      getField doc "snapshot" = some (encodeSnapshot snap)) ∧
    (sanitizeRefForFilename gitRef).data =
      gitRef.data.map (fun c =>
        if c.isAlphanum = true ∨ c = '.' ∨ c = '-' then c else '_') := by
  have hsan : (sanitizeRefForFilename gitRef).data =
      gitRef.data.map (fun c =>
        if c.isAlphanum = true ∨ c = '.' ∨ c = '-' then c else '_') := by
    show gitRef.data.map _ = gitRef.data.map _
    apply List.map_congr_left
    intro c _
    by_cases h : isRefFilenameSafe c = true
    · rw [if_pos h, if_pos ((isRefFilenameSafe_iff c).mp h)]
    · rw [if_neg h, if_neg (fun hp => h ((isRefFilenameSafe_iff c).mpr hp))]
  simp only [saveSnapshotFromGitRef] at hok
  cases hgr : validateGitRef gitRef with
  | error e => rw [hgr] at hok; cases hok
  | ok r =>
  rw [hgr] at hok
  cases hts : validatePath tsConfigPath (options.cwd.getD cwd) with
  | error e => rw [hts] at hok; cases hok
  | ok rt =>
  rw [hts] at hok
  simp only [saveSnapshot, Option.getD_none, Option.getD_some] at hok
  have hdef : (".flowlock/baseline-" ++ sanitizeRefForFilename gitRef ++
      ".json") = defaultBaselinePath gitRef := rfl
  rw [hdef] at hok
  cases hop : validatePath (defaultBaselinePath gitRef)
      (options.cwd.getD cwd) with
  | error e => rw [hop] at hok; cases hok
  | ok op =>
  rw [hop] at hok
  cases hts2 : validatePath
      (resolveFrom (resolveBase (options.cwd.getD cwd)) tsConfigPath)
      (options.cwd.getD cwd) with
  | error e => rw [hts2] at hok; cases hok
  | ok rt2 =>
  rw [hts2] at hok
  have hpair := Except.ok.inj hok
  have hp : op = p := congrArg Prod.fst hpair
  have hfs : _ = fsOut := congrArg Prod.snd hpair
  subst hp
  subst hfs
  refine ⟨?_, ⟨_, jsMapGet_insert_self _ _ _, rfl⟩, hsan⟩
  have hres := validatePath_ok_eq _ _ _ hop
  rw [strTrim_defaultBaselinePath] at hres
  exact hres

/-- Witness for C9 (amended) at ref `"origin/main"`. -/
theorem saveSnapshotFromGitRef_default_path_witness :
    ("/repo/.flowlock/baseline-origin_main.json" : String) =
      resolveFrom (resolveBase ((none : Option String).getD "/repo"))
        (defaultBaselinePath "origin/main") ∧
    (∃ doc, jsMapGet
        [("/repo/.flowlock/baseline-origin_main.json",
          Json.obj [("metadata", encodeMetadata SNAPSHOT_FORMAT_VERSION
              "2025-01-01T00:00:00.000Z" "/repo/tsconfig.json"
              (some "origin/main") none),
            ("snapshot", encodeSnapshot ⟨⟨[], [], []⟩⟩)])]
        "/repo/.flowlock/baseline-origin_main.json" = some doc ∧
      getField doc "snapshot" =
        some (encodeSnapshot (⟨⟨[], [], []⟩⟩ : ProjectSnapshot))) ∧
    (sanitizeRefForFilename "origin/main").data =
      ("origin/main" : String).data.map (fun c =>
        if c.isAlphanum = true ∨ c = '.' ∨ c = '-' then c else '_') :=
  saveSnapshotFromGitRef_default_path ⟨⟨[], [], []⟩⟩ none "tsconfig.json"
    "origin/main" ⟨none, false⟩ "/repo" "2025-01-01T00:00:00.000Z" [] _ _
    (by rfl)

theorem emitFirst_eq_nil_iff (bm : List (String × ParameterSignature))
    (kv : String × ParameterSignature) :
    emitFirst bm kv = [] ↔
      ∃ q, jsMapGet bm kv.1 = some q ∧ paramsEqual q kv.2 = true := by
  unfold emitFirst
  cases hget : jsMapGet bm kv.1 with
  | none => simp
  | some b =>
    by_cases hpe : paramsEqual b kv.2 = true
    · simp [hpe]
    · simp [hpe]

theorem emitRemoved_eq_nil_iff (am : List (String × ParameterSignature))
    (kv : String × ParameterSignature) :
    emitRemoved am kv = [] ↔ jsMapHas am kv.1 = true := by
  unfold emitRemoved
  by_cases h : jsMapHas am kv.1 = true
  · simp [h]
  · simp [h]

theorem returnPart_eq_nil_iff (before after : FunctionSignature) :
    returnPart before after = [] ↔
      normalizeForComparison before.returnType =
        normalizeForComparison after.returnType := by
  unfold returnPart
  by_cases h : normalizeForComparison before.returnType =
      normalizeForComparison after.returnType
  · simp [h]
  · simp [h]

theorem mem_emitFirst_shape (bm : List (String × ParameterSignature))
    (kv : String × ParameterSignature) (c : SignatureChange)
    (h : c ∈ emitFirst bm kv) :
    (∃ q b, c = .parameterAdded q b) ∨
      ∃ x y, c = .parameterTypeChanged x y true := by
  cases hget : jsMapGet bm kv.1 with
  | none =>
    have he : emitFirst bm kv =
        [SignatureChange.parameterAdded kv.2 (!kv.2.optional)] := by
      unfold emitFirst; rw [hget]
    rw [he] at h
    simp at h
    exact Or.inl ⟨kv.2, !kv.2.optional, h⟩
  | some b =>
    have he : emitFirst bm kv =
        if paramsEqual b kv.2 then []
        else [SignatureChange.parameterTypeChanged b kv.2 true] := by
      unfold emitFirst; rw [hget]
    rw [he] at h
    by_cases hpe : paramsEqual b kv.2 = true
    · rw [if_pos hpe] at h
      simp at h
    · rw [if_neg hpe] at h
      simp at h
      exact Or.inr ⟨b, kv.2, h⟩

theorem mem_emitRemoved_shape (am : List (String × ParameterSignature))
    (kv : String × ParameterSignature) (c : SignatureChange)
    (h : c ∈ emitRemoved am kv) : c = .parameterRemoved kv.2 true := by
  unfold emitRemoved at h
  split at h
  · simp at h
  · simpa using h

theorem mem_returnPart_shape (before after : FunctionSignature)
    (c : SignatureChange) (h : c ∈ returnPart before after) :
    c = .returnTypeChanged before.returnType after.returnType true := by
  unfold returnPart at h
  split at h
  · simpa using h
  · simp at h

theorem filter_isAdded_emitFirst (bm m : List (String × ParameterSignature)) :
    (m.flatMap (emitFirst bm)).filter SignatureChange.isAdded =
      (m.filter (fun kv => (jsMapGet bm kv.1).isNone)).map
        (fun kv => SignatureChange.parameterAdded kv.2 (!kv.2.optional)) := by
  induction m with
  | nil => rfl
  | cons kv rest ih =>
    simp only [List.flatMap_cons, List.filter_append, List.filter_cons]
    cases hget : jsMapGet bm kv.1 with
    | none =>
      have he : emitFirst bm kv =
          [SignatureChange.parameterAdded kv.2 (!kv.2.optional)] := by
        unfold emitFirst; rw [hget]
      rw [he]
      simp [hget, SignatureChange.isAdded, ih]
    | some b =>
      have he : emitFirst bm kv =
          if paramsEqual b kv.2 then []
          else [SignatureChange.parameterTypeChanged b kv.2 true] := by
        unfold emitFirst; rw [hget]
      rw [he]
      by_cases hpe : paramsEqual b kv.2 = true
      · simp [hpe, hget, ih]
      · simp [hpe, hget, SignatureChange.isAdded, ih]

theorem filter_isRemoved_emitRemoved
    (am m : List (String × ParameterSignature)) :
    (m.flatMap (emitRemoved am)).filter SignatureChange.isRemoved =
      (m.filter (fun kv => !jsMapHas am kv.1)).map
        (fun kv => SignatureChange.parameterRemoved kv.2 true) := by
  induction m with
  | nil => rfl
  | cons kv rest ih =>
    simp only [List.flatMap_cons, List.filter_append, List.filter_cons]
    by_cases hh : jsMapHas am kv.1 = true
    · have he : emitRemoved am kv = [] := by unfold emitRemoved; simp [hh]
      rw [he]
      simp [hh, ih]
    · have he : emitRemoved am kv =
          [SignatureChange.parameterRemoved kv.2 true] := by
        unfold emitRemoved
        simp [Bool.eq_false_iff.mpr hh]
      rw [he]
      simp [Bool.eq_false_iff.mpr hh, SignatureChange.isRemoved, ih]

theorem filter_of_shapes_nil {l : List SignatureChange}
    (p : SignatureChange → Bool)
    (h : ∀ c ∈ l, p c = false) : l.filter p = [] :=
  List.filter_eq_nil_iff.mpr (by intro c hc; simp [h c hc])

/-- C7: the change list of compareSignatures is the concatenation of the
after-map loop output (parameter-added and parameter-type-changed changes),
then the parameter-removed changes in before-map iteration order, then the
return-type change; the parameter-added group is the after-map iteration
order restricted to names absent before; and the list is empty exactly when
the two signatures agree (each after-parameter matches an equal
before-parameter, no before-parameter is missing after, and the normalized
return types coincide). -/
theorem compareSignatures_ordering (before after : FunctionSignature) :
    (compareSignatures before after =
      (compareSignatures before after).filter
          (fun c => c.isAdded || c.isTypeChanged) ++
        (compareSignatures before after).filter SignatureChange.isRemoved ++
        (compareSignatures before after).filter
          SignatureChange.isReturnChanged) ∧
    ((compareSignatures before after).filter SignatureChange.isAdded =
      ((paramsMap after).filter
          (fun kv => (jsMapGet (paramsMap before) kv.1).isNone)).map
        (fun kv => SignatureChange.parameterAdded kv.2 (!kv.2.optional))) ∧
    ((compareSignatures before after).filter SignatureChange.isRemoved =
      ((paramsMap before).filter
          (fun kv => !jsMapHas (paramsMap after) kv.1)).map
        (fun kv => SignatureChange.parameterRemoved kv.2 true)) ∧
    ((compareSignatures before after).filter
        SignatureChange.isReturnChanged = returnPart before after) ∧
    (compareSignatures before after = [] ↔
      (∀ kv ∈ paramsMap after, ∃ q,
          jsMapGet (paramsMap before) kv.1 = some q ∧
          paramsEqual q kv.2 = true) ∧
      (∀ kv ∈ paramsMap before, jsMapHas (paramsMap after) kv.1 = true) ∧
      normalizeForComparison before.returnType =
        normalizeForComparison after.returnType) := by
  rw [compareSignatures_eq]
  have hFshape : ∀ c ∈ (paramsMap after).flatMap (emitFirst (paramsMap before)),
      (∃ q b, c = .parameterAdded q b) ∨
        ∃ x y, c = .parameterTypeChanged x y true := by
    intro c hc
    rcases List.mem_flatMap.mp hc with ⟨kv, hkv, hm⟩
    exact mem_emitFirst_shape _ kv c hm
  have hRshape : ∀ c ∈ (paramsMap before).flatMap
      (emitRemoved (paramsMap after)), ∃ q, c = .parameterRemoved q true := by
    intro c hc
    rcases List.mem_flatMap.mp hc with ⟨kv, hkv, hm⟩
    exact ⟨kv.2, mem_emitRemoved_shape _ kv c hm⟩
  have hTshape : ∀ c ∈ returnPart before after,
      c = .returnTypeChanged before.returnType after.returnType true :=
    mem_returnPart_shape before after
  refine ⟨?_, ?_, ?_, ?_, ?_⟩
  · simp only [List.filter_append]
    have f1 : ((paramsMap after).flatMap (emitFirst (paramsMap before))).filter
        (fun c => c.isAdded || c.isTypeChanged) =
        (paramsMap after).flatMap (emitFirst (paramsMap before)) := by
      apply List.filter_eq_self.mpr
      intro c hc
      rcases hFshape c hc with ⟨q, b, rfl⟩ | ⟨x, y, rfl⟩ <;>
        simp [SignatureChange.isAdded, SignatureChange.isTypeChanged]
    have f2 : ((paramsMap before).flatMap
        (emitRemoved (paramsMap after))).filter
        (fun c => c.isAdded || c.isTypeChanged) = [] := by
      apply filter_of_shapes_nil
      intro c hc
      rcases hRshape c hc with ⟨q, rfl⟩
      rfl
    have f3 : (returnPart before after).filter
        (fun c => c.isAdded || c.isTypeChanged) = [] := by
      apply filter_of_shapes_nil
      intro c hc
      rw [hTshape c hc]
      rfl
    have r1 : ((paramsMap after).flatMap
        (emitFirst (paramsMap before))).filter SignatureChange.isRemoved
        = [] := by
      apply filter_of_shapes_nil
      intro c hc
      rcases hFshape c hc with ⟨q, b, rfl⟩ | ⟨x, y, rfl⟩ <;> rfl
    have r2 : ((paramsMap before).flatMap
        (emitRemoved (paramsMap after))).filter SignatureChange.isRemoved =
        (paramsMap before).flatMap (emitRemoved (paramsMap after)) := by
      apply List.filter_eq_self.mpr
      intro c hc
      rcases hRshape c hc with ⟨q, rfl⟩
      rfl
    have r3 : (returnPart before after).filter SignatureChange.isRemoved
        = [] := by
      apply filter_of_shapes_nil
      intro c hc
      rw [hTshape c hc]
      rfl
    have t1 : ((paramsMap after).flatMap
        (emitFirst (paramsMap before))).filter
        SignatureChange.isReturnChanged = [] := by
      apply filter_of_shapes_nil
      intro c hc
      rcases hFshape c hc with ⟨q, b, rfl⟩ | ⟨x, y, rfl⟩ <;> rfl
    have t2 : ((paramsMap before).flatMap
        (emitRemoved (paramsMap after))).filter
        SignatureChange.isReturnChanged = [] := by
      apply filter_of_shapes_nil
      intro c hc
      rcases hRshape c hc with ⟨q, rfl⟩
      rfl
    have t3 : (returnPart before after).filter
        SignatureChange.isReturnChanged = returnPart before after := by
      apply List.filter_eq_self.mpr
      intro c hc
      rw [hTshape c hc]
      rfl
    rw [f1, f2, f3, r1, r2, r3, t1, t2, t3]
    simp
  · simp only [List.filter_append]
    have a2 : ((paramsMap before).flatMap
        (emitRemoved (paramsMap after))).filter SignatureChange.isAdded
        = [] := by
      apply filter_of_shapes_nil
      intro c hc
      rcases hRshape c hc with ⟨q, rfl⟩
      rfl
    have a3 : (returnPart before after).filter SignatureChange.isAdded
        = [] := by
      apply filter_of_shapes_nil
      intro c hc
      rw [hTshape c hc]
      rfl
    rw [filter_isAdded_emitFirst, a2, a3]
    simp
  · simp only [List.filter_append]
    have r1 : ((paramsMap after).flatMap
        (emitFirst (paramsMap before))).filter SignatureChange.isRemoved
        = [] := by
      apply filter_of_shapes_nil
      intro c hc
      rcases hFshape c hc with ⟨q, b, rfl⟩ | ⟨x, y, rfl⟩ <;> rfl
    have r3 : (returnPart before after).filter SignatureChange.isRemoved
        = [] := by
      apply filter_of_shapes_nil
      intro c hc
      rw [hTshape c hc]
      rfl
    rw [r1, r3, filter_isRemoved_emitRemoved]
    simp
  · simp only [List.filter_append]
    have t1 : ((paramsMap after).flatMap
        (emitFirst (paramsMap before))).filter
        SignatureChange.isReturnChanged = [] := by
      apply filter_of_shapes_nil
      intro c hc
      rcases hFshape c hc with ⟨q, b, rfl⟩ | ⟨x, y, rfl⟩ <;> rfl
    have t2 : ((paramsMap before).flatMap
        (emitRemoved (paramsMap after))).filter
        SignatureChange.isReturnChanged = [] := by
      apply filter_of_shapes_nil
      intro c hc
      rcases hRshape c hc with ⟨q, rfl⟩
      rfl
    have t3 : (returnPart before after).filter
        SignatureChange.isReturnChanged = returnPart before after := by
      apply List.filter_eq_self.mpr
      intro c hc
      rw [hTshape c hc]
      rfl
    rw [t1, t2, t3]
    simp
  · rw [List.append_eq_nil, List.append_eq_nil]
    constructor
    · rintro ⟨⟨hF, hR⟩, hT⟩
      refine ⟨?_, ?_, (returnPart_eq_nil_iff _ _).mp hT⟩
      · intro kv hkv
        exact (emitFirst_eq_nil_iff _ kv).mp (List.flatMap_eq_nil_iff.mp hF kv hkv)
      · intro kv hkv
        exact (emitRemoved_eq_nil_iff _ kv).mp (List.flatMap_eq_nil_iff.mp hR kv hkv)
    · rintro ⟨hF, hR, hT⟩
      refine ⟨⟨?_, ?_⟩, (returnPart_eq_nil_iff _ _).mpr hT⟩
      · exact List.flatMap_eq_nil_iff.mpr fun kv hkv =>
          (emitFirst_eq_nil_iff _ kv).mpr (hF kv hkv)
      · exact List.flatMap_eq_nil_iff.mpr fun kv hkv =>
          (emitRemoved_eq_nil_iff _ kv).mpr (hR kv hkv)

/-- Witness for C7 instantiated at two concrete signatures (one added
parameter, one removed parameter, changed return type). -/
theorem compareSignatures_ordering_witness :
    compareSignatures
        ⟨"f", [⟨"a", "number", false⟩], "void", "x.ts", true⟩
        ⟨"f", [⟨"b", "string", true⟩], "number", "x.ts", true⟩ =
      (compareSignatures
          ⟨"f", [⟨"a", "number", false⟩], "void", "x.ts", true⟩
          ⟨"f", [⟨"b", "string", true⟩], "number", "x.ts", true⟩).filter
          (fun c => c.isAdded || c.isTypeChanged) ++
        (compareSignatures
          ⟨"f", [⟨"a", "number", false⟩], "void", "x.ts", true⟩
          ⟨"f", [⟨"b", "string", true⟩], "number", "x.ts", true⟩).filter
          SignatureChange.isRemoved ++
        (compareSignatures
          ⟨"f", [⟨"a", "number", false⟩], "void", "x.ts", true⟩
          ⟨"f", [⟨"b", "string", true⟩], "number", "x.ts", true⟩).filter
          SignatureChange.isReturnChanged :=
  (compareSignatures_ordering
    ⟨"f", [⟨"a", "number", false⟩], "void", "x.ts", true⟩
    ⟨"f", [⟨"b", "string", true⟩], "number", "x.ts", true⟩).1

def isAddedNamed (name : String) : SignatureChange → Bool
  | .parameterAdded q _ => q.name == name
  | _ => false

theorem paramsMap_name_inv (f : FunctionSignature) :
    ∀ kv ∈ paramsMap f, (kv.2 : ParameterSignature).name = kv.1 := by
  intro kv hkv
  have hsub := jsMapOfList_subset _ kv hkv
  rcases List.mem_map.mp hsub with ⟨q, _, rfl⟩
  rfl

theorem paramsMap_keys_mem (f : FunctionSignature) (x : String) :
    x ∈ (paramsMap f).map Prod.fst ↔
      x ∈ f.parameters.map ParameterSignature.name := by
  unfold paramsMap
  rw [jsMapOfList_keys_mem, paramsMap_keys]

theorem filter_key_nil {α : Type} (m : List (String × α)) (name : String)
    (q : String × α → Bool) (hnot : name ∉ m.map Prod.fst) :
    m.filter (fun kv => (kv.1 == name) && q kv) = [] := by
  induction m with
  | nil => rfl
  | cons kv rest ih =>
    have hk : kv.1 ≠ name := by
      intro h
      exact hnot (by simp [h])
    rw [List.filter_cons]
    have : ((kv.1 == name) && q kv) = false := by
      simp [hk]
    rw [this]
    simp only [Bool.false_eq_true, if_false]
    exact ih (fun h => hnot (by simp at h ⊢; exact Or.inr h))

theorem filter_key_unique {α : Type} (m : List (String × α))
    (hnd : (m.map Prod.fst).Nodup) (name : String) (v : α)
    (hmem : (name, v) ∈ m) (q : String × α → Bool) :
    m.filter (fun kv => (kv.1 == name) && q kv) =
      if q (name, v) then [(name, v)] else [] := by
  induction m with
  | nil => simp at hmem
  | cons kv rest ih =>
    simp only [List.map_cons, List.nodup_cons] at hnd
    by_cases hk : kv.1 = name
    · have hv : kv = (name, v) := by
        rcases List.mem_cons.mp hmem with h | h
        · exact h.symm
        · exfalso
          apply hnd.1
          rw [hk]
          exact List.mem_map.mpr ⟨(name, v), h, rfl⟩
      subst hv
      rw [List.filter_cons]
      have htail : rest.filter (fun kv => (kv.1 == name) && q kv) = [] := by
        apply filter_key_nil
        rw [← hk]
        exact hnd.1
      by_cases hq : q (name, v) = true
      · have : (((name, v).1 == name) && q (name, v)) = true := by
          simp [hq]
        rw [this]
        simp only [if_true]
        rw [htail, if_pos hq]
      · have : (((name, v).1 == name) && q (name, v)) = false := by
          simp [Bool.eq_false_iff.mpr hq]
        rw [this]
        simp only [Bool.false_eq_true, if_false]
        rw [htail, if_neg hq]
    · have hmem' : (name, v) ∈ rest := by
        rcases List.mem_cons.mp hmem with h | h
        · exact absurd (congrArg Prod.fst h.symm) hk
        · exact h
      rw [List.filter_cons]
      have : ((kv.1 == name) && q kv) = false := by
        simp [hk]
      rw [this]
      simp only [Bool.false_eq_true, if_false]
      exact ih hnd.2 hmem'

theorem filter_isAddedNamed_emitFirst
    (bm m : List (String × ParameterSignature))
    (hinv : ∀ kv ∈ m, (kv.2 : ParameterSignature).name = kv.1)
    (name : String) :
    (m.flatMap (emitFirst bm)).filter (isAddedNamed name) =
      (m.filter (fun kv => (kv.1 == name) &&
          (jsMapGet bm kv.1).isNone)).map
        (fun kv => SignatureChange.parameterAdded kv.2 (!kv.2.optional)) := by
  induction m with
  | nil => rfl
  | cons kv rest ih =>
    have hinv' : ∀ kv ∈ rest, (kv.2 : ParameterSignature).name = kv.1 :=
      fun kv hkv => hinv kv (List.mem_cons_of_mem _ hkv)
    have hname : kv.2.name = kv.1 := hinv kv (by simp)
    simp only [List.flatMap_cons, List.filter_append, List.filter_cons]
    cases hget : jsMapGet bm kv.1 with
    | none =>
      have he : emitFirst bm kv =
          [SignatureChange.parameterAdded kv.2 (!kv.2.optional)] := by
        unfold emitFirst; rw [hget]
      rw [he]
      by_cases hn : kv.1 = name
      · have hp : isAddedNamed name
            (SignatureChange.parameterAdded kv.2 (!kv.2.optional)) = true := by
          simp [isAddedNamed, hname, hn]
        simp [hp, hget, hn, ih hinv']
      · have hp : isAddedNamed name
            (SignatureChange.parameterAdded kv.2 (!kv.2.optional)) = false := by
          simp [isAddedNamed, hname, hn]
        simp [hp, hget, hn, ih hinv']
    | some b =>
      have he : emitFirst bm kv =
          if paramsEqual b kv.2 then []
          else [SignatureChange.parameterTypeChanged b kv.2 true] := by
        unfold emitFirst; rw [hget]
      rw [he]
      by_cases hpe : paramsEqual b kv.2 = true
      · simp [hpe, hget, ih hinv']
      · simp [hpe, hget, isAddedNamed, ih hinv']

theorem jsMapGet_singleton {α : Type} (k : String) (v : α) :
    jsMapGet [(k, v)] k = some v := by
  simp [jsMapGet]

theorem jsSetOfList_singleton (k : String) : jsSetOfList [k] = [k] := by
  simp [jsSetOfList]

theorem functionKeys_singleton (key : String) (f : FunctionSignature)
    (i : Record InterfaceDefinition) (t : Record TypeAliasDefinition) :
    functionKeys ⟨⟨[(key, f)], i, t⟩⟩ = [key] := by
  unfold functionKeys
  simp [jsSetOfList_singleton]

theorem hasBreaking_of_modified_breaking (fb fa : ProjectSnapshot)
    (k : String) (bf af : FunctionSignature)
    (hb : jsMapGet fb.symbols.functions k = some bf)
    (ha : jsMapGet fa.symbols.functions k = some af)
    (hc : ∃ c ∈ compareSignatures bf af, c.breaking = true) :
    (compareSnapshots fb fa).hasBreakingChanges = true := by
  rw [compareSnapshots_eq]
  apply (computeHasBreakingChanges_iff _ _).mpr
  right
  obtain ⟨c, hcm, hcb⟩ := hc
  refine ⟨⟨af.name, bf.filePath, af.filePath, compareSignatures bf af⟩,
    ?_, c, hcm, hcb⟩
  unfold modifiedOf
  apply List.mem_filterMap.mpr
  refine ⟨k, ?_, ?_⟩
  · apply (mem_jsSetOfList _ _).mpr
    exact List.mem_map.mpr ⟨(k, af), mem_of_jsMapGet_eq_some _ _ _ ha, rfl⟩
  · have hkb : (functionKeys fb).contains k = true := by
      apply List.elem_iff.mpr
      apply (mem_jsSetOfList _ _).mpr
      exact List.mem_map.mpr ⟨(k, bf), mem_of_jsMapGet_eq_some _ _ _ hb, rfl⟩
    rw [if_pos hkb, hb, ha]
    have hlen : (compareSignatures bf af).length > 0 :=
      List.length_pos.mpr (List.ne_nil_of_mem hcm)
    simp only [hlen, if_true]

theorem singleton_hasBreaking_false (key : String)
    (before after : FunctionSignature)
    (i1 i2 : Record InterfaceDefinition) (t1 t2 : Record TypeAliasDefinition)
    (hall : ∀ c ∈ compareSignatures before after, c.breaking = false) :
    (compareSnapshots ⟨⟨[(key, before)], i1, t1⟩⟩
      ⟨⟨[(key, after)], i2, t2⟩⟩).hasBreakingChanges = false := by
  rw [compareSnapshots_eq]
  have hrem : removedKeysOf ⟨⟨[(key, before)], i1, t1⟩⟩
      ⟨⟨[(key, after)], i2, t2⟩⟩ = [] := by
    unfold removedKeysOf
    rw [functionKeys_singleton, functionKeys_singleton]
    apply List.filter_eq_nil_iff.mpr
    intro a ha
    simp at ha
    subst ha
    simp
  have hmodall : ∀ drift ∈ modifiedOf ⟨⟨[(key, before)], i1, t1⟩⟩
      ⟨⟨[(key, after)], i2, t2⟩⟩,
      (drift.changes.any fun c => c.breaking) = false := by
    intro drift hd
    unfold modifiedOf at hd
    rw [functionKeys_singleton, functionKeys_singleton] at hd
    rcases List.mem_filterMap.mp hd with ⟨k2, hk2, hfk⟩
    simp only [List.mem_singleton] at hk2
    rw [hk2] at hfk
    have hcont : ([key].contains key) = true := by simp
    rw [if_pos hcont, jsMapGet_singleton, jsMapGet_singleton] at hfk
    simp only at hfk
    by_cases hlen : (compareSignatures before after).length > 0
    · rw [if_pos hlen] at hfk
      cases hfk
      apply List.any_eq_false.mpr
      intro c hcm
      simp [hall c hcm]
    · rw [if_neg hlen] at hfk
      cases hfk
  rw [hrem]
  unfold computeHasBreakingChanges
  simp only [List.length_nil, gt_iff_lt, Nat.lt_irrefl, if_false]
  apply List.any_eq_false.mpr
  intro drift hd
  simp [hmodall drift hd]

/-- C2: each parameter name present only in "after" produces exactly one
parameter-added change whose breaking flag is the negation of the added
parameter's optional flag; adding only optional parameters never makes the
drift report's `hasBreakingChanges` true, while adding a required parameter
always does. -/
theorem compareSignatures_parameter_added (before after : FunctionSignature) :
    (∀ name p, jsMapGet (paramsMap after) name = some p →
        jsMapGet (paramsMap before) name = none →
        (compareSignatures before after).filter (isAddedNamed name) =
          [SignatureChange.parameterAdded p (!p.optional)]) ∧
    (∀ newParams, after.parameters = before.parameters ++ newParams →
        ((before.parameters ++ newParams).map
            ParameterSignature.name).Nodup →
        (∀ q ∈ newParams, q.optional = true) →
        normalizeForComparison before.returnType =
          normalizeForComparison after.returnType →
        (∀ c ∈ compareSignatures before after, c.breaking = false) ∧
        ∀ key i1 t1 i2 t2,
          (compareSnapshots ⟨⟨[(key, before)], i1, t1⟩⟩
            ⟨⟨[(key, after)], i2, t2⟩⟩).hasBreakingChanges = false) ∧
    (∀ name p, jsMapGet (paramsMap after) name = some p →
        jsMapGet (paramsMap before) name = none → p.optional = false →
        (∃ c ∈ compareSignatures before after, c.breaking = true) ∧
        ∀ (fb fa : ProjectSnapshot) (k : String),
          jsMapGet fb.symbols.functions k = some before →
          jsMapGet fa.symbols.functions k = some after →
          (compareSnapshots fb fa).hasBreakingChanges = true) := by
  refine ⟨?_, ?_, ?_⟩
  · intro name p hget hnone
    rw [compareSignatures_eq]
    simp only [List.filter_append]
    have hR : ((paramsMap before).flatMap
        (emitRemoved (paramsMap after))).filter (isAddedNamed name) = [] := by
      apply filter_of_shapes_nil
      intro c hc
      rcases List.mem_flatMap.mp hc with ⟨kv, hkv, hm⟩
      rw [mem_emitRemoved_shape _ kv c hm]
      rfl
    have hT : (returnPart before after).filter (isAddedNamed name) = [] := by
      apply filter_of_shapes_nil
      intro c hc
      rw [mem_returnPart_shape _ _ c hc]
      rfl
    rw [hR, hT,
      filter_isAddedNamed_emitFirst _ _ (paramsMap_name_inv after) name]
    have hmem : (name, p) ∈ paramsMap after :=
      mem_of_jsMapGet_eq_some _ _ _ hget
    rw [filter_key_unique (paramsMap after) (jsMapOfList_keys_nodup _)
      name p hmem (fun kv => (jsMapGet (paramsMap before) kv.1).isNone)]
    rw [if_pos (by rw [hnone]; rfl)]
    simp
  · intro newParams hafter hnodup hopt hret
    have hnodup' := hnodup
    rw [List.map_append] at hnodup'
    rcases List.nodup_append.mp hnodup' with ⟨hnB, hnN, hdisj⟩
    have hmapB : paramsMap before =
        before.parameters.map fun p => (p.name, p) := by
      unfold paramsMap
      exact jsMapOfList_eq_self _ (by rw [paramsMap_keys]; exact hnB)
    have hmapA : paramsMap after =
        (before.parameters ++ newParams).map fun p => (p.name, p) := by
      unfold paramsMap
      rw [hafter]
      apply jsMapOfList_eq_self
      rw [keyed_map_fst]
      exact hnodup
    have hall : ∀ c ∈ compareSignatures before after, c.breaking = false := by
      intro c hc
      rw [compareSignatures_eq] at hc
      rcases List.mem_append.mp hc with hc | hcT
      · rcases List.mem_append.mp hc with hcF | hcR
        · rcases List.mem_flatMap.mp hcF with ⟨kv, hkv, hm⟩
          rw [hmapA] at hkv
          rcases List.mem_map.mp hkv with ⟨q, hq, rfl⟩
          rcases List.mem_append.mp hq with hqb | hqn
          · have hget : jsMapGet (paramsMap before) q.name = some q := by
              apply jsMapGet_eq_some_of_mem
              · unfold paramsMap
                exact jsMapOfList_keys_nodup _
              · rw [hmapB]
                exact List.mem_map.mpr ⟨q, hqb, rfl⟩
            have he : emitFirst (paramsMap before) (q.name, q) = [] := by
              unfold emitFirst
              rw [hget]
              simp [paramsEqual_refl]
            rw [he] at hm
            simp at hm
          · have hnone : jsMapGet (paramsMap before) q.name = none := by
              apply (jsMapGet_none_iff _ _).mpr
              intro hk
              rw [paramsMap_keys_mem] at hk
              exact hdisj hk (List.mem_map.mpr ⟨q, hqn, rfl⟩)
            have he : emitFirst (paramsMap before) (q.name, q) =
                [SignatureChange.parameterAdded q (!q.optional)] := by
              unfold emitFirst
              rw [hnone]
            rw [he] at hm
            simp at hm
            rw [hm]
            show (!q.optional) = false
            rw [hopt q hqn]
            rfl
        · rcases List.mem_flatMap.mp hcR with ⟨kv, hkv, hm⟩
          have hkey : kv.1 ∈ (paramsMap after).map Prod.fst := by
            rw [paramsMap_keys_mem, hafter, List.map_append]
            apply List.mem_append.mpr
            left
            have hname := paramsMap_name_inv before kv hkv
            have hsub := jsMapOfList_subset _ kv hkv
            rcases List.mem_map.mp hsub with ⟨q, hq, rfl⟩
            exact List.mem_map.mpr ⟨q, hq, rfl⟩
          obtain ⟨v, hv⟩ := jsMapGet_isSome_of_mem_keys _ _ hkey
          have he : emitRemoved (paramsMap after) kv = [] := by
            unfold emitRemoved jsMapHas
            rw [hv]
            rfl
          rw [he] at hm
          simp at hm
      · rw [(returnPart_eq_nil_iff _ _).mpr hret] at hcT
        simp at hcT
    exact ⟨hall, fun key i1 t1 i2 t2 =>
      singleton_hasBreaking_false key before after i1 i2 t1 t2 hall⟩
  · intro name p hget hnone hreq
    have hmem : (name, p) ∈ paramsMap after :=
      mem_of_jsMapGet_eq_some _ _ _ hget
    have hc : SignatureChange.parameterAdded p (!p.optional) ∈
        compareSignatures before after := by
      rw [compareSignatures_eq]
      apply List.mem_append.mpr
      left
      apply List.mem_append.mpr
      left
      apply List.mem_flatMap.mpr
      refine ⟨(name, p), hmem, ?_⟩
      have he : emitFirst (paramsMap before) (name, p) =
          [SignatureChange.parameterAdded p (!p.optional)] := by
        unfold emitFirst
        rw [hnone]
      rw [he]
      simp
    have hbreak : (SignatureChange.parameterAdded p (!p.optional)).breaking =
        true := by
      show (!p.optional) = true
      rw [hreq]
      rfl
    exact ⟨⟨_, hc, hbreak⟩, fun fb fa k hb ha =>
      hasBreaking_of_modified_breaking fb fa k before after hb ha
        ⟨_, hc, hbreak⟩⟩

/-- Witness for C2 at the greet scenario: adding the optional parameter
`greeting` yields exactly one non-breaking parameter-added change. -/
theorem compareSignatures_parameter_added_witness :
    (compareSignatures
        ⟨"greet", [⟨"name", "string", false⟩], "string", "api.ts", true⟩
        ⟨"greet", [⟨"name", "string", false⟩, ⟨"greeting", "string", true⟩],
          "string", "api.ts", true⟩).filter (isAddedNamed "greeting") =
      [SignatureChange.parameterAdded ⟨"greeting", "string", true⟩
        (!(true : Bool))] :=
  (compareSignatures_parameter_added
      ⟨"greet", [⟨"name", "string", false⟩], "string", "api.ts", true⟩
      ⟨"greet", [⟨"name", "string", false⟩, ⟨"greeting", "string", true⟩],
        "string", "api.ts", true⟩).1 "greeting" ⟨"greeting", "string", true⟩
    (by rfl) (by rfl)

/-! ## Structural decoding of the persisted JSON

`decode* (encode* x) = some x` is the formal content of "the loaded JSON tree
is structurally (deep) equal to the value that was saved". -/

def decodeParam : Json → Option ParameterSignature
  | .obj [("name", .str n), ("type", .str t), ("optional", .bool b)] =>
    some ⟨n, t, b⟩
  | _ => none

def decodeParams : List Json → Option (List ParameterSignature)
  | [] => some []
  | j :: rest =>
    match decodeParam j, decodeParams rest with
    | some p, some l => some (p :: l)
    | _, _ => none

def decodeFunction : Json → Option FunctionSignature
  | .obj [("name", .str n), ("parameters", .arr ps), ("returnType", .str r),
          ("filePath", .str fp), ("isExported", .bool ex)] =>
    match decodeParams ps with
    | some params => some ⟨n, params, r, fp, ex⟩
    | none => none
  | _ => none

def decodeInterfaceProp : Json → Option InterfaceProperty
  | .obj [("name", .str n), ("type", .str t), ("optional", .bool b)] =>
    some ⟨n, t, b⟩
  | _ => none

def decodeInterfaceProps : List Json → Option (List InterfaceProperty)
  | [] => some []
  | j :: rest =>
    match decodeInterfaceProp j, decodeInterfaceProps rest with
    | some p, some l => some (p :: l)
    | _, _ => none

def decodeInterface : Json → Option InterfaceDefinition
  | .obj [("name", .str n), ("properties", .arr ps), ("filePath", .str fp)] =>
    match decodeInterfaceProps ps with
    | some props => some ⟨n, props, fp⟩
    | none => none
  | _ => none

def decodeTypeAlias : Json → Option TypeAliasDefinition
  | .obj [("name", .str n), ("definition", .str d), ("filePath", .str fp)] =>
    some ⟨n, d, fp⟩
  | _ => none

def decodeRecord {α : Type} (dec : Json → Option α) :
    List (String × Json) → Option (Record α)
  | [] => some []
  | (k, j) :: rest =>
    match dec j, decodeRecord dec rest with
    | some v, some r => some ((k, v) :: r)
    | _, _ => none

def decodeSnapshot : Json → Option ProjectSnapshot
  | .obj [("symbols", .obj [("functions", .obj fs), ("interfaces", .obj is),
      ("types", .obj ts)])] =>
    match decodeRecord decodeFunction fs, decodeRecord decodeInterface is,
          decodeRecord decodeTypeAlias ts with
    | some f, some i, some t => some ⟨⟨f, i, t⟩⟩
    | _, _, _ => none
  | _ => none

theorem decodeParam_encode (p : ParameterSignature) :
    decodeParam (encodeParam p) = some p := by
  cases p
  rfl

theorem decodeParams_encode (l : List ParameterSignature) :
    decodeParams (l.map encodeParam) = some l := by
  induction l with
  | nil => rfl
  | cons p rest ih =>
    simp only [List.map_cons, decodeParams, decodeParam_encode, ih]

theorem decodeFunction_encode (f : FunctionSignature) :
    decodeFunction (encodeFunction f) = some f := by
  cases f
  simp only [encodeFunction, decodeFunction, decodeParams_encode]

theorem decodeInterfaceProp_encode (p : InterfaceProperty) :
    decodeInterfaceProp (encodeInterfaceProp p) = some p := by
  cases p
  rfl

theorem decodeInterfaceProps_encode (l : List InterfaceProperty) :
    decodeInterfaceProps (l.map encodeInterfaceProp) = some l := by
  induction l with
  | nil => rfl
  | cons p rest ih =>
    simp only [List.map_cons, decodeInterfaceProps,
      decodeInterfaceProp_encode, ih]

theorem decodeInterface_encode (i : InterfaceDefinition) :
    decodeInterface (encodeInterface i) = some i := by
  cases i
  simp only [encodeInterface, decodeInterface, decodeInterfaceProps_encode]

theorem decodeTypeAlias_encode (t : TypeAliasDefinition) :
    decodeTypeAlias (encodeTypeAlias t) = some t := by
  cases t
  rfl

theorem decodeRecord_encode {α : Type} (dec : Json → Option α)
    (enc : α → Json) (hde : ∀ v, dec (enc v) = some v) (r : Record α) :
    decodeRecord dec (r.map fun kv => (kv.1, enc kv.2)) = some r := by
  induction r with
  | nil => rfl
  | cons kv rest ih =>
    obtain ⟨k, v⟩ := kv
    simp only [List.map_cons, decodeRecord, hde, ih]

theorem decodeSnapshot_encode (S : ProjectSnapshot) :
    decodeSnapshot (encodeSnapshot S) = some S := by
  obtain ⟨⟨f, i, t⟩⟩ := S
  simp only [encodeSnapshot, encodeRecord, decodeSnapshot,
    decodeRecord_encode decodeFunction encodeFunction decodeFunction_encode,
    decodeRecord_encode decodeInterface encodeInterface
      decodeInterface_encode,
    decodeRecord_encode decodeTypeAlias encodeTypeAlias
      decodeTypeAlias_encode]

/-- C5: reading back a saved snapshot returns a stored document whose
`snapshot` field is structurally (deep) equal to the saved snapshot — it
decodes back to exactly S — and whose metadata carries `gitRef`/`gitSha`
unchanged when they were supplied to saveSnapshot. -/
theorem saveSnapshot_loadSnapshot_roundtrip (S : ProjectSnapshot)
    (tsConfigPath : String) (options : SaveSnapshotOptions) (cwd now : String)
    (fs : FS) (p : String) (fsOut : FS)
    (hsave : saveSnapshot S tsConfigPath options cwd now fs = .ok (p, fsOut))
    (hreval : validatePath p (options.baseDir.getD cwd) = .ok p) :
    ∃ doc, loadSnapshot p ⟨options.baseDir⟩ cwd fsOut = .ok doc ∧
      (∃ sj, getField doc "snapshot" = some sj ∧
        decodeSnapshot sj = some S) ∧
      (∀ r, options.gitRef = some r → ∃ m,
        getField doc "metadata" = some m ∧
        getField m "gitRef" = some (.str r)) ∧
      (∀ s, options.gitSha = some s → ∃ m,
        getField doc "metadata" = some m ∧
        getField m "gitSha" = some (.str s)) := by
  simp only [saveSnapshot] at hsave
  cases hop : validatePath (options.outputPath.getD DEFAULT_OUTPUT_PATH)
      (options.baseDir.getD cwd) with
  | error e => rw [hop] at hsave; cases hsave
  | ok op =>
  rw [hop] at hsave
  dsimp only at hsave
  cases hts : validatePath tsConfigPath (options.baseDir.getD cwd) with
  | error e => rw [hts] at hsave; cases hsave
  | ok rts =>
  rw [hts] at hsave
  dsimp only at hsave
  have hpair := Except.ok.inj hsave
  have hp : op = p := congrArg Prod.fst hpair
  have hfs : fsSet fs op (Json.obj [("metadata",
      encodeMetadata SNAPSHOT_FORMAT_VERSION now rts options.gitRef
        options.gitSha), ("snapshot", encodeSnapshot S)]) = fsOut :=
    congrArg Prod.snd hpair
  subst hp
  subst hfs
  refine ⟨Json.obj [("metadata", encodeMetadata SNAPSHOT_FORMAT_VERSION now
      rts options.gitRef options.gitSha),
      ("snapshot", encodeSnapshot S)], ?_, ?_, ?_, ?_⟩
  · simp only [loadSnapshot, fsSet]
    rw [hreval]
    dsimp only
    rw [jsMapGet_insert_self]
    rfl
  · exact ⟨encodeSnapshot S, rfl, decodeSnapshot_encode S⟩
  · intro r hr
    rw [hr]
    exact ⟨_, rfl, rfl⟩
  · intro s hs
    rw [hs]
    refine ⟨_, rfl, ?_⟩
    cases options.gitRef <;> rfl

/-- Witness for C5: a one-function snapshot saved with git metadata loads
back with a decodable snapshot field and the same gitRef/gitSha. -/
theorem saveSnapshot_loadSnapshot_roundtrip_witness :
    ∃ doc, loadSnapshot "/proj/.flowlock/snapshot.json" ⟨some "/proj"⟩
        "/proj"
        (fsSet [] "/proj/.flowlock/snapshot.json"
          (Json.obj [("metadata", encodeMetadata SNAPSHOT_FORMAT_VERSION
              "2025-01-01T00:00:00.000Z" "/proj/tsconfig.json" (some "main")
              (some "abc1234")),
            ("snapshot", encodeSnapshot ⟨⟨[("function:api.ts::greet",
              ⟨"greet", [⟨"name", "string", false⟩], "string", "api.ts",
                true⟩)], [], []⟩⟩)])) = .ok doc ∧
      (∃ sj, getField doc "snapshot" = some sj ∧
        decodeSnapshot sj = some ⟨⟨[("function:api.ts::greet",
          ⟨"greet", [⟨"name", "string", false⟩], "string", "api.ts",
            true⟩)], [], []⟩⟩) ∧
      (∀ r, (some "main" : Option String) = some r → ∃ m,
        getField doc "metadata" = some m ∧
        getField m "gitRef" = some (.str r)) ∧
      (∀ s, (some "abc1234" : Option String) = some s → ∃ m,
        getField doc "metadata" = some m ∧
        getField m "gitSha" = some (.str s)) :=
  saveSnapshot_loadSnapshot_roundtrip
    ⟨⟨[("function:api.ts::greet",
      ⟨"greet", [⟨"name", "string", false⟩], "string", "api.ts", true⟩)],
      [], []⟩⟩
    "tsconfig.json" ⟨none, some "/proj", some "main", some "abc1234"⟩
    "/proj" "2025-01-01T00:00:00.000Z" [] _ _ (by rfl) (by rfl)

end Flowlock
